import Mathlib

/-!
ByteUtilities: bit masks, bit slices and byte extraction

A shallow embedding of `src/byte-utilities/ByteUtilities.hpp`.

Data model.  A C++ integer type is described by its width in bits and its
signedness (`IntType`).  A value of such a type is the mathematical integer it
denotes (an `Int`); its two's-complement representation is `IntType.toBits`.
The platform is the usual LP64 one: `int` and `unsigned int` have 32 bits,
`size_t` and `long long` have 64 bits.

Operators.  Every C++ operator that occurs in the header is embedded on values:

* conversion to a type `T` keeps the value modulo `2 ^ bits` (`IntType.convert`);
* operands of a type narrower than `int` are promoted to `int` (`IntType.promote`),
  which leaves the value unchanged;
* `a & b` is the bitwise AND of the two's-complement representations in the
  operand type (`IntType.and`);
* `a << n` on an operand of type `P`, for `n` below the width of `P`, is `a * 2 ^ n`
  reduced modulo `2 ^ bits` (`IntType.shl`);
* `a >> n`, for `n` below the width of `P`, is `a / 2 ^ n` rounded towards negative
  infinity (`IntType.shr`);
* `a - b` in a type `P` is the difference reduced modulo `2 ^ bits` (`IntType.sub`).

The operator `a | b` (`IntType.or`) is not used by the header; it is embedded like
`a & b` to state how adjacent fields combine.

For a shift count that is not smaller than the width of the shifted operand C++
leaves the behaviour undefined.  There the embedding follows the compiled code: a
shift executed at run time takes its count modulo the width of the operand
(`IntType.shl`, `IntType.shr`), while a shift of constants, as in the compile-time
variant of the mask, is folded to `a * 2 ^ n` modulo `2 ^ bits` (`IntType.shlConst`).
The `Checked` functions return `none` as soon as such a shift is executed.  Where a
theorem needs every shift to be defined, its hypotheses say so.
-/

namespace ByteUtilities

/-! ## Integer types and their values -/

/-- A C++ integer type: width in bits and signedness. -/
structure IntType where
  bits : Nat
  signed : Bool
deriving DecidableEq, Repr

namespace IntType

/-- The type `int`. -/
def int : IntType := ⟨32, true⟩
/-- The type `unsigned int`, the type of the literal `1U`. -/
def unsigned_int : IntType := ⟨32, false⟩
/-- The type `long long int`. -/
def long_long : IntType := ⟨64, true⟩
/-- The type `size_t`. -/
def size_t : IntType := ⟨64, false⟩
/-- The type `uint8_t`, the return type of `GetByte`. -/
def uint8_t : IntType := ⟨8, false⟩
/-- The type `int16_t`. -/
def int16_t : IntType := ⟨16, true⟩
/-- The type `uint16_t`. -/
def uint16_t : IntType := ⟨16, false⟩
/-- The type `uint32_t`. -/
def uint32_t : IntType := ⟨32, false⟩
/-- The type `uint64_t`. -/
def uint64_t : IntType := ⟨64, false⟩

/-- The widths the library is used with: 16, 32 and 64 bits. -/
def Standard (T : IntType) : Prop := T.bits = 16 ∨ T.bits = 32 ∨ T.bits = 64

instance (T : IntType) : Decidable T.Standard := by
  unfold Standard; infer_instance

/-- The values of the type: `[0, 2^bits)` when unsigned, `[-2^(bits-1), 2^(bits-1))`
when signed. -/
def InRange (T : IntType) (v : Int) : Prop :=
  if T.signed then -((2 ^ (T.bits - 1) : Nat) : Int) ≤ v ∧ v < ((2 ^ (T.bits - 1) : Nat) : Int)
  else 0 ≤ v ∧ v < ((2 ^ T.bits : Nat) : Int)

instance (T : IntType) (v : Int) : Decidable (T.InRange v) := by
  unfold InRange; infer_instance

/-- Two's-complement representation of a value in `bits` bits. -/
def toBits (T : IntType) (v : Int) : Nat := (v % ((2 ^ T.bits : Nat) : Int)).toNat

/-- The value a representation denotes: for a signed type a set top bit makes it
negative. -/
def ofBits (T : IntType) (b : Nat) : Int :=
  if T.signed && decide (2 ^ (T.bits - 1) ≤ b) then (b : Int) - ((2 ^ T.bits : Nat) : Int)
  else (b : Int)

/-- Conversion of an integer value to the type `T` (as in a `return` of type `T`):
the value is kept modulo `2 ^ bits`. -/
def convert (T : IntType) (v : Int) : Int := T.ofBits (T.toBits v)

/-- Integer promotion: a type narrower than `int` is promoted to `int`. -/
def promote (T : IntType) : IntType := if T.bits < 32 then int else T

/-- The operator `a & b` on two operands of type `P`. -/
def and (P : IntType) (a b : Int) : Int := P.ofBits (P.toBits a &&& P.toBits b)

/-- The operator `a | b` on two operands of type `P`.  The header does not use it; it
serves to state how adjacent fields combine. -/
def or (P : IntType) (a b : Int) : Int := P.ofBits (P.toBits a ||| P.toBits b)

/-- The operator `a << n` executed at run time on an operand of type `P`.  For
`n < bits` it is `a * 2 ^ n` modulo `2 ^ bits`.  For `n ≥ bits` C++ leaves the shift
undefined; the shift instruction takes the count modulo the width of the operand, and
so does this definition. -/
def shl (P : IntType) (a : Int) (n : Nat) : Int :=
  P.convert (a * ((2 ^ (n % P.bits) : Nat) : Int))

/-- The operator `a >> n` executed at run time on an operand of type `P`: `a / 2 ^ n`
rounded towards negative infinity, the count taken modulo the width as in `shl`. -/
def shr (P : IntType) (a : Int) (n : Nat) : Int := a / ((2 ^ (n % P.bits) : Nat) : Int)

/-- The operator `a << n` on constant operands of type `P`, as the compiler folds it:
`a * 2 ^ n` modulo `2 ^ bits`, whatever the count.  It agrees with `shl` for
`n < bits`. -/
def shlConst (P : IntType) (a : Int) (n : Nat) : Int := P.convert (a * ((2 ^ n : Nat) : Int))

/-- The operator `a - b` on two operands of type `P`. -/
def sub (P : IntType) (a b : Int) : Int := P.convert (a - b)

/-- A shift by `n` executed on an operand of type `P` is defined only for `n < bits`. -/
def shiftOk (P : IntType) (n : Nat) : Bool := decide (n < P.bits)

/-- Guarded `a << n`: `none` when the count is out of range. -/
def shlChecked (P : IntType) (a : Int) (n : Nat) : Option Int :=
  if P.shiftOk n then some (P.shl a n) else none

/-- Guarded `a >> n`: `none` when the count is out of range. -/
def shrChecked (P : IntType) (a : Int) (n : Nat) : Option Int :=
  if P.shiftOk n then some (P.shr a n) else none

end IntType

open IntType

/-- Arithmetic on `size_t` operands wraps modulo `2 ^ 64`. -/
def sizeWrap (n : Nat) : Nat := n % 2 ^ 64

/-! ## The four operations of the header -/

/-- `CreateBitMask<T>(nPos, nLen)`: `return ((1U << nLen) - 1U) << nPos;`.
The expression is evaluated in `unsigned int`, the result is converted to `T`. -/
def CreateBitMask (T : IntType) (nPos nLen : Nat) : Int :=
  T.convert (unsigned_int.shl (unsigned_int.sub (unsigned_int.shl 1 nLen) 1) nPos)

/-- `MaskBits(nInt, nPos, nLen)`: `return nInt & CreateBitMask<T>(nPos, nLen);`.
Both operands have type `T` and are promoted before the AND. -/
def MaskBits (T : IntType) (nInt : Int) (nPos nLen : Nat) : Int :=
  T.convert (T.promote.and nInt (CreateBitMask T nPos nLen))

/-- `GetBitSlice(nInt, nPos, nLen)`: `return MaskBits(nInt, nPos, nLen) >> nPos;`. -/
def GetBitSlice (T : IntType) (nInt : Int) (nPos nLen : Nat) : Int :=
  T.convert (T.promote.shr (MaskBits T nInt nPos nLen) nPos)

/-- `GetByte(nInt, nByte)`: `return (nInt >> (8 * nByte)) & 0xff;` with return type
`uint8_t`.  The shift is done in the promoted type of `T`, the literal `0xff` is
converted to that type for the AND. -/
def GetByte (T : IntType) (nInt : Int) (nByte : Nat) : Int :=
  uint8_t.convert (T.promote.and (T.promote.shr nInt (sizeWrap (8 * nByte))) 0xff)

/-! ## The compile-time variant of the mask -/

/-- The condition of the `if constexpr` in `CreateBitMask<T, _nPos, _nLen>()`:
`!std::is_integral_v<T> && (_nPos < (sizeof(T) * 8) - 1) &&
 ((_nLen + _nPos) <= (sizeof(T) * 8))`. -/
def staticCheckCond (isIntegral : Bool) (sizeofT nPos nLen : Nat) : Bool :=
  !isIntegral && decide (nPos < sizeWrap (sizeWrap (sizeofT * 8) - 1)) &&
    decide (sizeWrap (nLen + nPos) ≤ sizeWrap (sizeofT * 8))

/-- The statement under that `if constexpr` is `static_assert("T should be ...")`:
the asserted expression is the string literal itself, which converts to `true`. -/
def staticAssertOperand : Bool := true

/-- Whether the instantiation `CreateBitMask<T, _nPos, _nLen>()` is rejected by its
static check: the branch has to be taken and the assertion in it has to fail. -/
def staticCheckRejects (isIntegral : Bool) (sizeofT nPos nLen : Nat) : Bool :=
  staticCheckCond isIntegral sizeofT nPos nLen && !staticAssertOperand

/-- `CreateBitMask<T, _nPos, _nLen>()` for an integer type `T`: `none` when the
static check rejects the instantiation, otherwise the value of
`return ((1U << _nLen) - 1U) << _nPos;`.  Both shift counts are template arguments, so
the shifts are shifts of constants. -/
def CreateBitMaskCT (T : IntType) (nPos nLen : Nat) : Option Int :=
  if staticCheckRejects true (T.bits / 8) nPos nLen then none
  else some (T.convert
    (unsigned_int.shlConst (unsigned_int.sub (unsigned_int.shlConst 1 nLen) 1) nPos))

/-! ## The operations with guarded shifts -/

/-- `CreateBitMask<T>(nPos, nLen)` with every shift guarded. -/
def CreateBitMaskChecked (T : IntType) (nPos nLen : Nat) : Option Int :=
  (unsigned_int.shlChecked 1 nLen).bind fun a =>
    (unsigned_int.shlChecked (unsigned_int.sub a 1) nPos).bind fun m =>
      some (T.convert m)

/-- `MaskBits(nInt, nPos, nLen)` with every shift guarded. -/
def MaskBitsChecked (T : IntType) (nInt : Int) (nPos nLen : Nat) : Option Int :=
  (CreateBitMaskChecked T nPos nLen).bind fun m =>
    some (T.convert (T.promote.and nInt m))

/-- `GetBitSlice(nInt, nPos, nLen)` with every shift guarded. -/
def GetBitSliceChecked (T : IntType) (nInt : Int) (nPos nLen : Nat) : Option Int :=
  (MaskBitsChecked T nInt nPos nLen).bind fun m =>
    (T.promote.shrChecked m nPos).bind fun s =>
      some (T.convert s)

/-- `GetByte(nInt, nByte)` with the shift guarded. -/
def GetByteChecked (T : IntType) (nInt : Int) (nByte : Nat) : Option Int :=
  (T.promote.shrChecked nInt (sizeWrap (8 * nByte))).bind fun s =>
    some (uint8_t.convert (T.promote.and s 0xff))


/-! ## Auxiliary definitions -/

/-- The six types the test cases of `Tests.cpp` are instantiated with:
`int, long long int, size_t, uint16_t, uint32_t, uint64_t`. -/
def testTypes : List IntType := [int, long_long, size_t, uint16_t, uint32_t, uint64_t]

/-- Closed form of the `unsigned int` value `((1U << nLen) - 1U) << nPos` with folded
shifts, used in the proofs: a natural number below `2 ^ 32`. -/
def maskConstNat (nPos nLen : Nat) : Nat :=
  ((2 ^ nLen % 2 ^ 32 + (2 ^ 32 - 1)) % 2 ^ 32 * 2 ^ nPos) % 2 ^ 32

/-- Closed form of the `unsigned int` value `((1U << nLen) - 1U) << nPos` computed at run
time, used in the proofs: both counts are taken modulo 32. -/
def maskNat (nPos nLen : Nat) : Nat := maskConstNat (nPos % 32) (nLen % 32)

/-! ## Arithmetic of conversions and representations -/

namespace IntType

theorem two_pow_pos_int (n : Nat) : (0 : Int) < ((2 ^ n : Nat) : Int) := by
  exact_mod_cast Nat.two_pow_pos n

theorem two_pow_dvd_int {m n : Nat} (h : m ≤ n) :
    ((2 ^ m : Nat) : Int) ∣ ((2 ^ n : Nat) : Int) :=
  Int.natCast_dvd_natCast.mpr (Nat.pow_dvd_pow 2 h)

theorem toBits_cast (T : IntType) (v : Int) :
    ((T.toBits v : Nat) : Int) = v % ((2 ^ T.bits : Nat) : Int) := by
  unfold toBits
  exact Int.toNat_of_nonneg (Int.emod_nonneg _ (two_pow_pos_int _).ne')

theorem toBits_lt (T : IntType) (v : Int) : T.toBits v < 2 ^ T.bits := by
  have h := Int.emod_lt_of_pos v (two_pow_pos_int T.bits)
  rw [← toBits_cast] at h
  exact_mod_cast h

theorem toBits_natCast (T : IntType) (b : Nat) : T.toBits (b : Int) = b % 2 ^ T.bits := by
  have h := toBits_cast T (b : Int)
  exact_mod_cast h

theorem ofBits_emod (T : IntType) (b : Nat) :
    T.ofBits b % ((2 ^ T.bits : Nat) : Int) = (b : Int) % ((2 ^ T.bits : Nat) : Int) := by
  unfold ofBits
  split
  · have e : (b : Int) - ((2 ^ T.bits : Nat) : Int)
        = (b : Int) + (-1) * ((2 ^ T.bits : Nat) : Int) := by ring
    rw [e, Int.add_mul_emod_self]
  · rfl

theorem toBits_ofBits_of_le (T P : IntType) (h : T.bits ≤ P.bits) (b : Nat) :
    T.toBits (P.ofBits b) = b % 2 ^ T.bits := by
  have e : ((T.toBits (P.ofBits b) : Nat) : Int) = ((b % 2 ^ T.bits : Nat) : Int) := by
    rw [toBits_cast, ← Int.emod_emod_of_dvd (P.ofBits b) (two_pow_dvd_int h), ofBits_emod,
      Int.emod_emod_of_dvd _ (two_pow_dvd_int h), Int.natCast_mod]
  exact_mod_cast e

theorem toBits_mod_of_le (T P : IntType) (h : T.bits ≤ P.bits) (v : Int) :
    P.toBits v % 2 ^ T.bits = T.toBits v := by
  have e : ((P.toBits v % 2 ^ T.bits : Nat) : Int) = ((T.toBits v : Nat) : Int) := by
    rw [Int.natCast_mod, toBits_cast, toBits_cast, Int.emod_emod_of_dvd _ (two_pow_dvd_int h)]
  exact_mod_cast e

theorem toBits_ofBits (T : IntType) {b : Nat} (hb : b < 2 ^ T.bits) :
    T.toBits (T.ofBits b) = b := by
  rw [toBits_ofBits_of_le T T (Nat.le_refl _), Nat.mod_eq_of_lt hb]

theorem toBits_convert (T : IntType) (v : Int) : T.toBits (T.convert v) = T.toBits v := by
  unfold convert
  exact toBits_ofBits T (toBits_lt T v)

theorem two_pow_pred (n : Nat) (h : 0 < n) : 2 ^ n = 2 * 2 ^ (n - 1) := by
  obtain ⟨k, rfl⟩ : ∃ k, n = k + 1 := ⟨n - 1, by omega⟩
  simp [pow_succ, Nat.mul_comm]

theorem convert_of_inRange (T : IntType) (hw : 0 < T.bits) {v : Int} (h : T.InRange v) :
    T.convert v = v := by
  have hp := two_pow_pred T.bits hw
  have hc := toBits_cast T v
  unfold convert ofBits
  unfold InRange at h
  generalize T.toBits v = t at hc ⊢
  generalize 2 ^ (T.bits - 1) = H at hp h ⊢
  rw [hp] at hc h ⊢
  push_cast at hc h ⊢
  have hH : (0 : Int) ≤ (H : Int) := Int.natCast_nonneg H
  cases hs : T.signed
  · simp only [hs, Bool.false_eq_true, if_false] at h ⊢
    simp only [Bool.false_and, Bool.false_eq_true, if_false]
    rw [hc, Int.emod_eq_of_lt h.1 h.2]
  · simp only [hs, if_true] at h
    simp only [Bool.true_and, decide_eq_true_eq]
    by_cases hv : 0 ≤ v
    · rw [Int.emod_eq_of_lt hv (by omega)] at hc
      rw [if_neg (by omega)]
      exact hc
    · have e : v % (2 * (H : Int)) = v + 2 * (H : Int) := by
        have e2 : v = (v + 2 * (H : Int)) + (-1) * (2 * (H : Int)) := by ring
        rw [e2, Int.add_mul_emod_self, Int.emod_eq_of_lt (by omega) (by omega)]
        ring
      rw [e] at hc
      rw [if_pos (by omega)]
      omega

theorem ofBits_inRange (T : IntType) (hw : 0 < T.bits) {b : Nat} (hb : b < 2 ^ T.bits) :
    T.InRange (T.ofBits b) := by
  have hp := two_pow_pred T.bits hw
  unfold InRange ofBits
  generalize 2 ^ (T.bits - 1) = H at hp ⊢
  rw [hp] at hb ⊢
  push_cast
  cases hs : T.signed
  · simp only [Bool.false_and, Bool.false_eq_true, if_false]
    omega
  · simp only [Bool.true_and, decide_eq_true_eq, if_true]
    split <;> omega

theorem convert_inRange (T : IntType) (hw : 0 < T.bits) (v : Int) : T.InRange (T.convert v) :=
  ofBits_inRange T hw (toBits_lt T v)

theorem promote_bits_le (T : IntType) : T.bits ≤ T.promote.bits := by
  unfold promote
  split
  · simp only [int]; omega
  · exact Nat.le_refl _

theorem and_mod_two_pow (a c n : Nat) : (a &&& c) % 2 ^ n = (a % 2 ^ n) &&& (c % 2 ^ n) := by
  apply Nat.eq_of_testBit_eq
  intro i
  simp only [Nat.testBit_mod_two_pow, Nat.testBit_and]
  cases decide (i < n) <;> simp

theorem convert_and_promote (T : IntType) (x m : Int) :
    T.convert (T.promote.and x m) = T.ofBits (T.toBits x &&& T.toBits m) := by
  unfold convert IntType.and
  rw [toBits_ofBits_of_le T T.promote (promote_bits_le T), and_mod_two_pow,
    toBits_mod_of_le T T.promote (promote_bits_le T),
    toBits_mod_of_le T T.promote (promote_bits_le T)]

end IntType

namespace IntType

theorem convert_congr (T : IntType) {a b : Int}
    (h : a % ((2 ^ T.bits : Nat) : Int) = b % ((2 ^ T.bits : Nat) : Int)) :
    T.convert a = T.convert b := by
  unfold convert toBits
  rw [h]

theorem convert_emod (T : IntType) (a : Int) :
    T.convert a % ((2 ^ T.bits : Nat) : Int) = a % ((2 ^ T.bits : Nat) : Int) := by
  unfold convert
  rw [ofBits_emod, toBits_cast, Int.emod_emod_of_dvd _ (dvd_refl _)]

theorem convert_convert (T : IntType) (a : Int) : T.convert (T.convert a) = T.convert a :=
  convert_congr T (convert_emod T a)

theorem convert_ofBits (T : IntType) {b : Nat} (hb : b < 2 ^ T.bits) :
    T.convert (T.ofBits b) = T.ofBits b := by
  unfold convert
  rw [toBits_ofBits T hb]

theorem ofBits_zero (T : IntType) : T.ofBits 0 = 0 := by
  unfold ofBits
  have : ¬ (2 ^ (T.bits - 1) ≤ 0) := by
    have := Nat.two_pow_pos (T.bits - 1)
    omega
  simp [this]

theorem toBits_zero (T : IntType) : T.toBits 0 = 0 := by
  unfold toBits
  simp

theorem convert_zero (T : IntType) : T.convert 0 = 0 := by
  unfold convert
  rw [toBits_zero, ofBits_zero]

theorem ofBits_unsigned (T : IntType) (h : T.signed = false) (b : Nat) :
    T.ofBits b = (b : Int) := by
  unfold ofBits
  simp [h]

theorem convert_natCast_unsigned (T : IntType) (h : T.signed = false) (n : Nat) :
    T.convert (n : Int) = ((n % 2 ^ T.bits : Nat) : Int) := by
  unfold convert
  rw [ofBits_unsigned T h, toBits_natCast]

end IntType


theorem convert_unsigned_int (v : Int) : unsigned_int.convert v = v % 4294967296 := by
  unfold convert
  rw [ofBits_unsigned _ rfl, toBits_cast]
  rfl

theorem maskConst32_eq (nPos nLen : Nat) :
    unsigned_int.shlConst (unsigned_int.sub (unsigned_int.shlConst 1 nLen) 1) nPos
      = ((maskConstNat nPos nLen : Nat) : Int) := by
  unfold IntType.shlConst IntType.sub maskConstNat
  simp only [convert_unsigned_int]
  push_cast
  generalize ((2 : Int) ^ nLen) = a
  generalize ((2 : Int) ^ nPos) = b
  have e : (1 * a % 4294967296 - 1) % 4294967296
      = (a % 4294967296 + 4294967295) % 4294967296 := by omega
  rw [e]

theorem shl_unsigned_int (a : Int) (n : Nat) :
    unsigned_int.shl a n = unsigned_int.shlConst a (n % 32) := rfl

theorem mask32_eq (nPos nLen : Nat) :
    unsigned_int.shl (unsigned_int.sub (unsigned_int.shl 1 nLen) 1) nPos
      = ((maskNat nPos nLen : Nat) : Int) := by
  rw [shl_unsigned_int, shl_unsigned_int, maskConst32_eq]
  rfl

theorem shl_of_lt (P : IntType) (a : Int) {n : Nat} (h : n < P.bits) :
    P.shl a n = P.convert (a * ((2 ^ n : Nat) : Int)) := by
  unfold IntType.shl
  rw [Nat.mod_eq_of_lt h]

theorem shr_of_lt (P : IntType) (a : Int) {n : Nat} (h : n < P.bits) :
    P.shr a n = a / ((2 ^ n : Nat) : Int) := by
  unfold IntType.shr
  rw [Nat.mod_eq_of_lt h]

theorem CreateBitMask_eq (T : IntType) (nPos nLen : Nat) :
    CreateBitMask T nPos nLen = T.ofBits (maskNat nPos nLen % 2 ^ T.bits) := by
  unfold CreateBitMask
  rw [mask32_eq]
  unfold convert
  rw [toBits_natCast]

theorem toBits_CreateBitMask (T : IntType) (nPos nLen : Nat) :
    T.toBits (CreateBitMask T nPos nLen) = maskNat nPos nLen % 2 ^ T.bits := by
  rw [CreateBitMask_eq, toBits_ofBits T (Nat.mod_lt _ (Nat.two_pow_pos _))]

theorem MaskBits_eq (T : IntType) (nInt : Int) (nPos nLen : Nat) :
    MaskBits T nInt nPos nLen
      = T.ofBits (T.toBits nInt &&& (maskNat nPos nLen % 2 ^ T.bits)) := by
  unfold MaskBits
  rw [convert_and_promote, toBits_CreateBitMask]

theorem toBits_MaskBits (T : IntType) (nInt : Int) (nPos nLen : Nat) :
    T.toBits (MaskBits T nInt nPos nLen)
      = T.toBits nInt &&& (maskNat nPos nLen % 2 ^ T.bits) := by
  rw [MaskBits_eq, toBits_ofBits T (Nat.lt_of_le_of_lt Nat.and_le_left (toBits_lt T nInt))]

theorem maskConstNat_zero_len (nPos : Nat) : maskConstNat nPos 0 = 0 := by
  unfold maskConstNat
  simp

theorem maskNat_zero_len (nPos : Nat) : maskNat nPos 0 = 0 :=
  maskConstNat_zero_len (nPos % 32)

theorem maskConstNat_exact {nPos nLen : Nat} (hl : nLen ≤ 31) (h : nPos + nLen ≤ 32) :
    maskConstNat nPos nLen = (2 ^ nLen - 1) * 2 ^ nPos := by
  unfold maskConstNat
  have h1 : 2 ^ nLen < 2 ^ 32 := Nat.pow_lt_pow_right (by decide) (by omega)
  have h0 : 0 < 2 ^ nLen := Nat.two_pow_pos _
  have h2 : (2 ^ nLen % 2 ^ 32 + (2 ^ 32 - 1)) % 2 ^ 32 = 2 ^ nLen - 1 := by
    rw [Nat.mod_eq_of_lt h1]
    omega
  rw [h2]
  apply Nat.mod_eq_of_lt
  calc (2 ^ nLen - 1) * 2 ^ nPos < 2 ^ nLen * 2 ^ nPos :=
        Nat.mul_lt_mul_of_pos_right (by omega) (Nat.two_pow_pos _)
    _ = 2 ^ (nLen + nPos) := (pow_add 2 nLen nPos).symm
    _ ≤ 2 ^ 32 := Nat.pow_le_pow_right (by decide) (by omega)

theorem maskNat_of_lt {nPos nLen : Nat} (hp : nPos < 32) (hl : nLen < 32) :
    maskNat nPos nLen = maskConstNat nPos nLen := by
  unfold maskNat
  rw [Nat.mod_eq_of_lt hp, Nat.mod_eq_of_lt hl]

theorem maskNat_exact {nPos nLen : Nat} (hl : nLen ≤ 31) (h : nPos + nLen ≤ 32) :
    maskNat nPos nLen = (2 ^ nLen - 1) * 2 ^ nPos := by
  by_cases hp : nPos < 32
  · rw [maskNat_of_lt hp (by omega), maskConstNat_exact hl h]
  · have h0 : nLen = 0 := by omega
    subst h0
    rw [maskNat_zero_len]
    simp

theorem two_pow_dvd_maskConstNat (nPos nLen : Nat) : 2 ^ nPos ∣ maskConstNat nPos nLen := by
  unfold maskConstNat
  by_cases h : nPos ≤ 32
  · exact (Nat.dvd_mod_iff (Nat.pow_dvd_pow 2 h)).mpr (Dvd.intro_left _ rfl)
  · have : 2 ^ 32 ∣ (2 ^ nLen % 2 ^ 32 + (2 ^ 32 - 1)) % 2 ^ 32 * 2 ^ nPos :=
      Dvd.dvd.mul_left (Nat.pow_dvd_pow 2 (by omega)) _
    rw [Nat.mod_eq_zero_of_dvd this]
    exact Nat.dvd_zero _

theorem two_pow_dvd_maskNat {nPos : Nat} (hp : nPos < 32) (nLen : Nat) :
    2 ^ nPos ∣ maskNat nPos nLen := by
  unfold maskNat
  rw [Nat.mod_eq_of_lt hp]
  exact two_pow_dvd_maskConstNat nPos (nLen % 32)

theorem and_dvd_of_dvd_right {p X Y : Nat} (h : 2 ^ p ∣ Y) : 2 ^ p ∣ X &&& Y := by
  apply Nat.dvd_of_mod_eq_zero
  rw [and_mod_two_pow, Nat.mod_eq_zero_of_dvd h, Nat.and_zero]

theorem two_pow_dvd_ofBits (T : IntType) {p b : Nat} (hp : p ≤ T.bits) (h : 2 ^ p ∣ b) :
    ((2 ^ p : Nat) : Int) ∣ T.ofBits b := by
  unfold ofBits
  split
  · exact dvd_sub (Int.natCast_dvd_natCast.mpr h) (two_pow_dvd_int hp)
  · exact Int.natCast_dvd_natCast.mpr h

theorem two_pow_dvd_MaskBits (T : IntType) (nInt : Int) {nPos : Nat} (nLen : Nat)
    (hp : nPos ≤ T.bits) (hp32 : nPos < 32) :
    ((2 ^ nPos : Nat) : Int) ∣ MaskBits T nInt nPos nLen := by
  rw [MaskBits_eq]
  apply two_pow_dvd_ofBits T hp
  apply and_dvd_of_dvd_right
  exact (Nat.dvd_mod_iff (Nat.pow_dvd_pow 2 hp)).mpr (two_pow_dvd_maskNat hp32 nLen)

theorem convert_MaskBits (T : IntType) (nInt : Int) (nPos nLen : Nat) :
    T.convert (MaskBits T nInt nPos nLen) = MaskBits T nInt nPos nLen := by
  unfold MaskBits
  exact convert_convert T _

theorem inRange_ediv (T : IntType) {v : Int} (h : T.InRange v) (n : Nat) :
    T.InRange (v / ((2 ^ n : Nat) : Int)) := by
  have hd : (1 : Int) ≤ ((2 ^ n : Nat) : Int) := by exact_mod_cast Nat.two_pow_pos n
  unfold InRange at h ⊢
  generalize ((2 ^ n : Nat) : Int) = d at hd ⊢
  generalize ((2 ^ (T.bits - 1) : Nat) : Int) = H at h ⊢
  generalize ((2 ^ T.bits : Nat) : Int) = W at h ⊢
  have hd0 : (0 : Int) < d := by omega
  split at h
  · rw [if_pos (by assumption)]
    constructor
    · apply Int.le_ediv_of_mul_le hd0
      nlinarith
    · apply Int.ediv_lt_of_lt_mul hd0
      nlinarith
  · rw [if_neg (by assumption)]
    constructor
    · exact Int.ediv_nonneg h.1 (by omega)
    · apply Int.ediv_lt_of_lt_mul hd0
      nlinarith

theorem MaskBits_inRange (T : IntType) (hw : 0 < T.bits) (nInt : Int) (nPos nLen : Nat) :
    T.InRange (MaskBits T nInt nPos nLen) := by
  unfold MaskBits
  exact convert_inRange T hw _

theorem GetBitSlice_eq_ediv (T : IntType) (hw : 0 < T.bits) (nInt : Int) {nPos : Nat}
    (nLen : Nat) (hp : nPos < T.promote.bits) :
    GetBitSlice T nInt nPos nLen = MaskBits T nInt nPos nLen / ((2 ^ nPos : Nat) : Int) := by
  unfold GetBitSlice
  rw [shr_of_lt _ _ hp]
  exact convert_of_inRange T hw (inRange_ediv T (MaskBits_inRange T hw nInt nPos nLen) nPos)

theorem promote_pos (T : IntType) : 0 < T.promote.bits := by
  unfold promote
  split
  · decide
  · omega

theorem promote_bits_ge (T : IntType) : 32 ≤ T.promote.bits := by
  unfold promote
  split
  · decide
  · omega

theorem inRange_promote (T : IntType) (hw : 0 < T.bits) {v : Int} (h : T.InRange v) :
    T.promote.InRange v := by
  unfold promote
  split
  · rename_i hlt
    have hp := two_pow_pred T.bits hw
    have h31 : 2 ^ T.bits ≤ 2 ^ 31 := Nat.pow_le_pow_right (by decide) (by omega)
    unfold InRange at h ⊢
    simp only [int, if_true]
    generalize 2 ^ (T.bits - 1) = H at hp h
    rw [hp] at h h31
    push_cast at h
    norm_num
    split at h <;> omega
  · exact h

theorem promote_shl_GetBitSlice (T : IntType) (hw : 0 < T.bits) (nInt : Int) {nPos : Nat}
    (nLen : Nat) (hp : nPos ≤ T.bits) (hp32 : nPos < 32) :
    T.promote.shl (GetBitSlice T nInt nPos nLen) nPos = MaskBits T nInt nPos nLen := by
  have hpp : nPos < T.promote.bits := Nat.lt_of_lt_of_le hp32 (promote_bits_ge T)
  rw [shl_of_lt _ _ hpp, GetBitSlice_eq_ediv T hw nInt nLen hpp,
    Int.ediv_mul_cancel (two_pow_dvd_MaskBits T nInt nLen hp hp32)]
  exact convert_of_inRange _ (promote_pos T)
    (inRange_promote T hw (MaskBits_inRange T hw nInt nPos nLen))

theorem testBit_div_two_pow (X p j : Nat) : (X / 2 ^ p).testBit j = X.testBit (p + j) := by
  rw [← Nat.shiftRight_eq_div_pow, Nat.testBit_shiftRight]

theorem and_mask_eq (X p l : Nat) :
    X &&& ((2 ^ l - 1) * 2 ^ p) = 2 ^ p * (X / 2 ^ p % 2 ^ l) := by
  apply Nat.eq_of_testBit_eq
  intro i
  rw [Nat.mul_comm (2 ^ l - 1) (2 ^ p)]
  simp only [Nat.testBit_and, Nat.testBit_mul_pow_two, Nat.testBit_mod_two_pow,
    Nat.testBit_two_pow_sub_one, testBit_div_two_pow]
  by_cases h : p ≤ i
  · have e : p + (i - p) = i := by omega
    simp [h, e, Bool.and_comm]
  · simp [h]

theorem ofBits_of_lt (T : IntType) {b : Nat} (h : T.signed = false ∨ b < 2 ^ (T.bits - 1)) :
    T.ofBits b = (b : Int) := by
  unfold ofBits
  rcases h with h | h
  · simp [h]
  · have : ¬ (2 ^ (T.bits - 1) ≤ b) := by omega
    simp [this]

theorem convert_natCast_of_lt (T : IntType) {b : Nat} (hb : b < 2 ^ T.bits)
    (h : T.signed = false ∨ b < 2 ^ (T.bits - 1)) : T.convert (b : Int) = (b : Int) := by
  unfold convert
  rw [toBits_natCast, Nat.mod_eq_of_lt hb, ofBits_of_lt T h]

/-- Within the range where the 32-bit intermediate is exact, and away from a set
sign bit, the slice is the unsigned field value. -/
theorem GetBitSlice_field (T : IntType) (nInt : Int) {nPos nLen : Nat}
    (hl : nLen ≤ 31) (h32 : nPos + nLen ≤ 32) (hw : nPos + nLen ≤ T.bits)
    (hs : T.signed = false ∨ T.toBits nInt &&& ((2 ^ nLen - 1) * 2 ^ nPos) < 2 ^ (T.bits - 1)) :
    GetBitSlice T nInt nPos nLen = ((T.toBits nInt / 2 ^ nPos % 2 ^ nLen : Nat) : Int) := by
  have hm : maskNat nPos nLen % 2 ^ T.bits = (2 ^ nLen - 1) * 2 ^ nPos := by
    rw [maskNat_exact hl h32]
    apply Nat.mod_eq_of_lt
    calc (2 ^ nLen - 1) * 2 ^ nPos < 2 ^ nLen * 2 ^ nPos :=
          Nat.mul_lt_mul_of_pos_right
            (by have := Nat.two_pow_pos nLen; omega) (Nat.two_pow_pos _)
      _ = 2 ^ (nLen + nPos) := (pow_add 2 nLen nPos).symm
      _ ≤ 2 ^ T.bits := Nat.pow_le_pow_right (by decide) (by omega)
  have hM : MaskBits T nInt nPos nLen
      = ((2 ^ nPos * (T.toBits nInt / 2 ^ nPos % 2 ^ nLen) : Nat) : Int) := by
    rw [MaskBits_eq, hm, ofBits_of_lt T hs, and_mask_eq]
  have hpos : 0 < 2 ^ nPos := Nat.two_pow_pos _
  have hle : T.toBits nInt / 2 ^ nPos % 2 ^ nLen
      ≤ T.toBits nInt &&& ((2 ^ nLen - 1) * 2 ^ nPos) := by
    rw [and_mask_eq]
    exact Nat.le_mul_of_pos_left _ hpos
  have hlt : T.toBits nInt / 2 ^ nPos % 2 ^ nLen < 2 ^ T.bits :=
    Nat.lt_of_le_of_lt (Nat.le_trans hle Nat.and_le_left) (toBits_lt T nInt)
  unfold GetBitSlice
  rw [hM]
  have e : ((2 ^ nPos * (T.toBits nInt / 2 ^ nPos % 2 ^ nLen) : Nat) : Int)
      / ((2 ^ nPos : Nat) : Int) = ((T.toBits nInt / 2 ^ nPos % 2 ^ nLen : Nat) : Int) := by
    rw [← Int.natCast_div, Nat.mul_div_cancel_left _ hpos]
  by_cases hp : nPos < 32
  · rw [shr_of_lt _ _ (Nat.lt_of_lt_of_le hp (promote_bits_ge T)), e]
    apply convert_natCast_of_lt T hlt
    rcases hs with hs | hs
    · exact Or.inl hs
    · exact Or.inr (Nat.lt_of_le_of_lt hle hs)
  · have h0 : nLen = 0 := by omega
    subst h0
    unfold IntType.shr
    simp only [pow_zero, Nat.mod_one, Nat.mul_zero, Nat.cast_zero, Int.zero_ediv]
    exact convert_zero T

theorem toBits_of_nonneg (T : IntType) {v : Int} (h0 : 0 ≤ v)
    (hv : v < ((2 ^ T.bits : Nat) : Int)) : ((T.toBits v : Nat) : Int) = v := by
  rw [toBits_cast, Int.emod_eq_of_lt h0 hv]

theorem GetByte_eq_shr (T : IntType) (nInt : Int) (nByte : Nat) :
    GetByte T nInt nByte = T.promote.shr nInt (sizeWrap (8 * nByte)) % 256 := by
  unfold GetByte IntType.and
  generalize T.promote.shr nInt (sizeWrap (8 * nByte)) = a
  have hge := promote_bits_ge T
  have h255 : T.promote.toBits 255 = 2 ^ 8 - 1 := by
    have : T.promote.toBits ((255 : Nat) : Int) = 255 % 2 ^ T.promote.bits :=
      toBits_natCast _ 255
    rw [Nat.mod_eq_of_lt (Nat.lt_of_lt_of_le (by decide : 255 < 2 ^ 32)
      (Nat.pow_le_pow_right (by decide) hge))] at this
    exact this
  have h8 : uint8_t.bits ≤ T.promote.bits := by
    show 8 ≤ T.promote.bits
    omega
  rw [h255, Nat.and_pow_two_sub_one_eq_mod, ← (show uint8_t.bits = 8 from rfl),
    toBits_mod_of_le uint8_t T.promote h8]
  have hlt : uint8_t.toBits a < 2 ^ 8 := toBits_lt uint8_t a
  have hlt2 : uint8_t.toBits a < 2 ^ (T.promote.bits - 1) :=
    Nat.lt_of_lt_of_le hlt (Nat.pow_le_pow_right (by decide) (by omega))
  rw [ofBits_of_lt _ (Or.inr hlt2), convert_natCast_of_lt uint8_t hlt (Or.inl rfl),
    toBits_cast]
  rfl

theorem GetByte_eq (T : IntType) (nInt : Int) (nByte : Nat) (hb : 8 * nByte < T.promote.bits)
    (hs : sizeWrap (8 * nByte) = 8 * nByte) :
    GetByte T nInt nByte = nInt / ((2 ^ (8 * nByte) : Nat) : Int) % 256 := by
  rw [GetByte_eq_shr, hs, shr_of_lt _ _ hb]

theorem promote_of_ge (T : IntType) (h : 32 ≤ T.bits) : T.promote = T := by
  unfold promote
  rw [if_neg (by omega)]

theorem sizeWrap_of_lt {n : Nat} (h : n < 2 ^ 64) : sizeWrap n = n := Nat.mod_eq_of_lt h

theorem land_255 (a : Int) (h : 0 ≤ a) : Int.land a 0xFF = a % 256 := by
  obtain ⟨n, rfl⟩ := Int.eq_ofNat_of_zero_le h
  show ((n &&& 255 : Nat) : Int) = (n : Int) % 256
  rw [show (255 : Nat) = 2 ^ 8 - 1 from rfl, Nat.and_pow_two_sub_one_eq_mod]
  norm_num

theorem standard_pos {T : IntType} (h : T.Standard) : 0 < T.bits := by
  unfold Standard at h
  omega

theorem staticCheckRejects_false (isIntegral : Bool) (sizeofT nPos nLen : Nat) :
    staticCheckRejects isIntegral sizeofT nPos nLen = false := by
  unfold staticCheckRejects staticAssertOperand
  simp

theorem CreateBitMaskCT_eq (T : IntType) (nPos nLen : Nat) :
    CreateBitMaskCT T nPos nLen = some (T.ofBits (maskConstNat nPos nLen % 2 ^ T.bits)) := by
  unfold CreateBitMaskCT
  rw [staticCheckRejects_false, maskConst32_eq]
  unfold convert
  rw [toBits_natCast]
  rfl

theorem CreateBitMaskCT_isSome (T : IntType) (nPos nLen : Nat) :
    (CreateBitMaskCT T nPos nLen).isSome = true := by
  rw [CreateBitMaskCT_eq]
  rfl

theorem CreateBitMaskChecked_eq (T : IntType) {nPos nLen : Nat} (hp : nPos < 32)
    (hl : nLen < 32) : CreateBitMaskChecked T nPos nLen = some (CreateBitMask T nPos nLen) := by
  unfold CreateBitMaskChecked shlChecked shiftOk
  have h1 : decide (nLen < unsigned_int.bits) = true := decide_eq_true hl
  have h2 : decide (nPos < unsigned_int.bits) = true := decide_eq_true hp
  rw [h1, h2]
  rfl

/-- Away from a set sign bit the masked representation stays below `2 ^ (bits - 1)`. -/
theorem masked_lt_half (T : IntType) {nInt : Int} {nPos nLen : Nat} (hx : T.InRange nInt)
    (hs : T.signed = false ∨ nPos + nLen < T.bits ∨ 0 ≤ nInt) :
    T.signed = false
      ∨ T.toBits nInt &&& ((2 ^ nLen - 1) * 2 ^ nPos) < 2 ^ (T.bits - 1) := by
  cases hsg : T.signed
  · exact Or.inl rfl
  · right
    rcases hs with hs | hs | hs
    · rw [hsg] at hs; exact absurd hs (by decide)
    · rw [and_mask_eq]
      calc 2 ^ nPos * (T.toBits nInt / 2 ^ nPos % 2 ^ nLen)
          < 2 ^ nPos * 2 ^ nLen :=
            Nat.mul_lt_mul_of_pos_left (Nat.mod_lt _ (Nat.two_pow_pos _)) (Nat.two_pow_pos _)
        _ = 2 ^ (nPos + nLen) := (pow_add 2 nPos nLen).symm
        _ ≤ 2 ^ (T.bits - 1) := Nat.pow_le_pow_right (by decide) (by omega)
    · unfold InRange at hx
      rw [if_pos hsg] at hx
      have hlt : nInt < ((2 ^ T.bits : Nat) : Int) := by
        have : 2 ^ (T.bits - 1) ≤ 2 ^ T.bits := Nat.pow_le_pow_right (by decide) (by omega)
        have : ((2 ^ (T.bits - 1) : Nat) : Int) ≤ ((2 ^ T.bits : Nat) : Int) := by
          exact_mod_cast this
        omega
      have hX := toBits_of_nonneg T hs hlt
      have : T.toBits nInt < 2 ^ (T.bits - 1) := by
        have h2 := hx.2
        rw [← hX] at h2
        exact_mod_cast h2
      exact Nat.lt_of_le_of_lt Nat.and_le_left this

/-! ## The claims -/

/-- Claim C1, evaluated where it fails: for the 64-bit type `uint64_t`, `nPos = 31` and
`nLen = 2` satisfy `nPos + nLen ≤ 64` and no shift count reaches 32, yet
`CreateBitMask<uint64_t>(31, 2)` is `0x80000000`: bit 32 is clear, whereas the claimed
mask `(2^2 - 1) * 2^31 = 0x180000000` has it set.  The mask is computed in the 32-bit
type of the literal `1U` and only then converted to `T`. -/
theorem CreateBitMask_uint64_loses_bit32 :
    31 + 2 ≤ uint64_t.bits ∧
    CreateBitMask uint64_t 31 2 = 0x80000000 ∧
    (uint64_t.toBits (CreateBitMask uint64_t 31 2)).testBit 32 = false ∧
    (2 ^ 2 - 1) * 2 ^ 31 = 0x180000000 := by
  decide

/-- Claim C2, evaluated where it fails: for `uint64_t`, `nInt = 0x100000000`, `nPos = 31`,
`nLen = 2`, bit 32 of `nInt` is set and lies in `[nPos, nPos + nLen)`, yet
`MaskBits(nInt, 31, 2)` is `0`.  The test values of the claim hold for the six test
types: `MaskBits(0x37AB, 9, 5) = 0x3600`, `MaskBits(0x37AB, 0, 1) = 0x0001`,
`MaskBits(0xB7AB, 15, 1) = 0x8000`. -/
theorem MaskBits_uint64_loses_bit32 :
    31 + 2 ≤ uint64_t.bits ∧ uint64_t.InRange 0x100000000 ∧
    (uint64_t.toBits 0x100000000).testBit 32 = true ∧
    MaskBits uint64_t 0x100000000 31 2 = 0 ∧
    (uint64_t.toBits (MaskBits uint64_t 0x100000000 31 2)).testBit 32 = false ∧
    (∀ T ∈ testTypes, MaskBits T 0x37AB 9 5 = 0x3600 ∧ MaskBits T 0x37AB 0 1 = 0x0001
      ∧ MaskBits T 0xB7AB 15 1 = 0x8000) := by
  decide

/-- Claim C3 fails as stated: for `T = int`, `nInt = -1`, `nPos = 24`, `nLen = 8` the
slice is `-1`, so bit 8 of the result is set and the result is not in `[0, 2^8)`: the
right shift of the negative masked value is arithmetic.  (On `uint64_t` the field that
reaches bit 32 is lost as well: `GetBitSlice(0x100000000, 31, 2)` is `0`, the field is
`2`.) -/
theorem GetBitSlice_int_sign_extends :
    IntType.int.InRange (-1) ∧ 24 + 8 ≤ IntType.int.bits ∧
    GetBitSlice IntType.int (-1) 24 8 = -1 ∧
    (IntType.int.toBits (GetBitSlice IntType.int (-1) 24 8)).testBit 8 = true ∧
    GetBitSlice IntType.int (-1) 24 8 < 0 ∧
    (uint64_t.InRange 0x100000000 ∧ 31 + 2 ≤ uint64_t.bits ∧
      GetBitSlice uint64_t 0x100000000 31 2 = 0 ∧
      uint64_t.toBits 0x100000000 / 2 ^ 31 % 2 ^ 2 = 2) := by
  decide

/-- Claim C3, amended: for every integer type `T`, every value `nInt` of `T` and every
`nPos`, `nLen` with `nPos + nLen ≤ bitwidth(T)`, `nPos + nLen ≤ 32` and `nLen ≤ 31`,
provided `T` is unsigned or `nPos + nLen < bitwidth(T)` or `nInt ≥ 0`,
`GetBitSlice(nInt, nPos, nLen)` is the `nLen`-bit field of `nInt` at position `nPos`,
right-aligned: bit `j` of the result is bit `nPos + j` of `nInt` for `j < nLen`, every
bit `j ≥ nLen` of the result is `0`, and the result lies in `[0, 2^nLen)`. -/
theorem GetBitSlice_is_field (T : IntType) (nInt : Int) (nPos nLen : Nat)
    (hx : T.InRange nInt) (hw : nPos + nLen ≤ T.bits) (h32 : nPos + nLen ≤ 32)
    (hl : nLen ≤ 31) (hs : T.signed = false ∨ nPos + nLen < T.bits ∨ 0 ≤ nInt) :
    (∀ j, j < nLen → (T.toBits (GetBitSlice T nInt nPos nLen)).testBit j
        = (T.toBits nInt).testBit (nPos + j)) ∧
    (∀ j, nLen ≤ j → (T.toBits (GetBitSlice T nInt nPos nLen)).testBit j = false) ∧
    0 ≤ GetBitSlice T nInt nPos nLen ∧
    GetBitSlice T nInt nPos nLen < 2 ^ nLen := by
  have hv := GetBitSlice_field T nInt hl h32 hw (masked_lt_half T hx hs)
  have hlt : T.toBits nInt / 2 ^ nPos % 2 ^ nLen < 2 ^ nLen := Nat.mod_lt _ (Nat.two_pow_pos _)
  have hbits : T.toBits (GetBitSlice T nInt nPos nLen)
      = T.toBits nInt / 2 ^ nPos % 2 ^ nLen := by
    rw [hv, toBits_natCast]
    exact Nat.mod_eq_of_lt (Nat.lt_of_lt_of_le hlt (Nat.pow_le_pow_right (by decide) (by omega)))
  refine ⟨?_, ?_, ?_, ?_⟩
  · intro j hj
    rw [hbits, Nat.testBit_mod_two_pow, testBit_div_two_pow]
    simp [hj]
  · intro j hj
    rw [hbits, Nat.testBit_mod_two_pow]
    have : ¬ j < nLen := by omega
    simp [this]
  · rw [hv]; exact Int.natCast_nonneg _
  · rw [hv]; exact_mod_cast hlt

/-- Witness for C3: `T = int`, `GetBitSlice(0x37AB, 9, 5) = 0x001B`, a value in
`[0, 2^5)`. -/
theorem GetBitSlice_is_field_witness :
    GetBitSlice IntType.int 0x37AB 9 5 = 0x001B ∧
    0 ≤ GetBitSlice IntType.int 0x37AB 9 5 ∧ GetBitSlice IntType.int 0x37AB 9 5 < 2 ^ 5 :=
  ⟨by decide,
   (GetBitSlice_is_field IntType.int 0x37AB 9 5 (by decide) (by decide) (by decide)
      (by decide) (Or.inr (Or.inl (by decide)))).2.2⟩

/-- Claim C4: for every 64-bit unsigned `x` and every byte index `i ≤ 7`,
`GetByte(x, i)` is `floor(x / 256^i) mod 256`, which is `(x >> (8*i)) AND 0xFF`. -/
theorem GetByte_uint64_spec (x : Int) (i : Nat) (hx : uint64_t.InRange x) (hi : i ≤ 7) :
    GetByte uint64_t x i = x / 256 ^ i % 256 ∧
    GetByte uint64_t x i = Int.land (x >>> (8 * i)) 0xFF := by
  have hw : sizeWrap (8 * i) = 8 * i := sizeWrap_of_lt (by
    have : (8 * i) < 64 := by omega
    exact Nat.lt_trans this (by decide))
  have e : ((2 ^ (8 * i) : Nat) : Int) = 256 ^ i := by
    rw [pow_mul]; norm_num
  have h0 : 0 ≤ x := by
    unfold InRange at hx
    exact hx.1
  have hb : 8 * i < uint64_t.promote.bits := by
    show 8 * i < 64
    omega
  constructor
  · rw [GetByte_eq uint64_t x i hb hw, e]
  · rw [GetByte_eq uint64_t x i hb hw, Int.shiftRight_eq_div_pow, land_255]
    exact Int.ediv_nonneg h0 (Int.natCast_nonneg _)

/-- Witness for C4: the bytes of `0xABCDEF0123456789` are `0x89, 0x67, 0x45, 0x23, 0x01,
0xEF, 0xCD, 0xAB`, and `GetByte(0xAB01CD, 1) = 0x01` with `T = int`. -/
theorem GetByte_uint64_spec_witness :
    (GetByte uint64_t 0xABCDEF0123456789 5 = 0xABCDEF0123456789 / 256 ^ 5 % 256) ∧
    GetByte uint64_t 0xABCDEF0123456789 0 = 0x89 ∧
    GetByte uint64_t 0xABCDEF0123456789 1 = 0x67 ∧
    GetByte uint64_t 0xABCDEF0123456789 2 = 0x45 ∧
    GetByte uint64_t 0xABCDEF0123456789 3 = 0x23 ∧
    GetByte uint64_t 0xABCDEF0123456789 4 = 0x01 ∧
    GetByte uint64_t 0xABCDEF0123456789 5 = 0xEF ∧
    GetByte uint64_t 0xABCDEF0123456789 6 = 0xCD ∧
    GetByte uint64_t 0xABCDEF0123456789 7 = 0xAB ∧
    GetByte IntType.int 0xAB01CD 1 = 0x01 :=
  ⟨(GetByte_uint64_spec 0xABCDEF0123456789 5 (by decide) (by decide)).1,
    by decide, by decide, by decide, by decide, by decide, by decide, by decide, by decide,
    by decide⟩

/-- Claim C5: for every integer type `T`, every `nInt` and any `nPos`, a zero length
gives zero: `CreateBitMask<T>(nPos, 0) = 0`, `MaskBits(nInt, nPos, 0) = 0` and
`GetBitSlice(nInt, nPos, 0) = 0`. -/
theorem zero_length_gives_zero (T : IntType) (nInt : Int) (nPos : Nat) :
    CreateBitMask T nPos 0 = 0 ∧ MaskBits T nInt nPos 0 = 0 ∧ GetBitSlice T nInt nPos 0 = 0 := by
  have h1 : CreateBitMask T nPos 0 = 0 := by
    rw [CreateBitMask_eq, maskNat_zero_len, Nat.zero_mod, ofBits_zero]
  have h2 : MaskBits T nInt nPos 0 = 0 := by
    rw [MaskBits_eq, maskNat_zero_len, Nat.zero_mod, Nat.and_zero, ofBits_zero]
  refine ⟨h1, h2, ?_⟩
  unfold GetBitSlice IntType.shr
  rw [h2, Int.zero_ediv, convert_zero]

/-- Witness for C5: on each of the six test types `MaskBits(0x37AB, 0, 0) = 0` and
`MaskBits(0xB7AB, 15, 0) = 0`. -/
theorem zero_length_gives_zero_witness :
    testTypes.map (fun T => MaskBits T 0x37AB 0 0) = [0, 0, 0, 0, 0, 0] ∧
    testTypes.map (fun T => MaskBits T 0xB7AB 15 0) = [0, 0, 0, 0, 0, 0] ∧
    MaskBits uint64_t 0xB7AB 15 0 = 0 :=
  ⟨by decide, by decide, (zero_length_gives_zero uint64_t 0xB7AB 15).2.1⟩

/-- Claim C6, evaluated where it fails: for `uint64_t`, `x = 0xABCDEF0123456789`, `p = 40`,
`l = 8` (so `p + l ≤ 64`), the mask is built by shifting the 32-bit `255U` by 40, which
the guarded operation refuses; the code takes the count modulo 32, the mask is `0xFF00`,
`MaskBits(x, 40, 8)` is `0x6700`, `GetBitSlice(x, 40, 8)` is `0`, and shifting the slice
back left by 40 gives `0`, not `0x6700`.  With the mask built in `T` the masked value
would be the field of `x` at bits 40..47 and the round trip would hold.  Where every
shift is defined, the round trip does hold: for every `T` of 16, 32 or 64 bits, every
`x` of `T` and `p + l ≤ bitwidth(T)` with `p < 32` and `l < 32`,
`(GetBitSlice(x, p, l) << p) = MaskBits(x, p, l)`, also after conversion to `T`. -/
theorem slice_roundtrip_breaks_beyond_bit32 :
    (40 + 8 ≤ uint64_t.bits ∧ uint64_t.InRange 0xABCDEF0123456789 ∧
      MaskBitsChecked uint64_t 0xABCDEF0123456789 40 8 = none ∧
      CreateBitMask uint64_t 40 8 = 0xFF00 ∧
      MaskBits uint64_t 0xABCDEF0123456789 40 8 = 0x6700 ∧
      GetBitSlice uint64_t 0xABCDEF0123456789 40 8 = 0 ∧
      uint64_t.promote.shl (GetBitSlice uint64_t 0xABCDEF0123456789 40 8) 40 = 0 ∧
      uint64_t.toBits 0xABCDEF0123456789 &&& ((2 ^ 8 - 1) * 2 ^ 40) = 0xEF0000000000) ∧
    (∀ (T : IntType) (x : Int) (p l : Nat), T.Standard → T.InRange x → p + l ≤ T.bits →
      p < 32 → l < 32 →
        T.promote.shl (GetBitSlice T x p l) p = MaskBits T x p l ∧
        T.convert (T.promote.shl (GetBitSlice T x p l) p) = MaskBits T x p l) := by
  refine ⟨by decide, ?_⟩
  intro T x p l hT _ h hp _
  have e := promote_shl_GetBitSlice T (standard_pos hT) x l (show p ≤ T.bits by omega) hp
  exact ⟨e, by rw [e, convert_MaskBits]⟩

/-- Witness for the defined range of C6: `T = int`, `x = -1`, `p = 24`, `l = 8`; the
masked value is `-16777216` (pattern `0xFF000000`), the slice is `-1`. -/
theorem slice_roundtrip_defined_witness :
    IntType.int.promote.shl (GetBitSlice IntType.int (-1) 24 8) 24
      = MaskBits IntType.int (-1) 24 8 ∧
    MaskBits IntType.int (-1) 24 8 = -16777216 ∧ GetBitSlice IntType.int (-1) 24 8 = -1 :=
  ⟨(slice_roundtrip_breaks_beyond_bit32.2 IntType.int (-1) 24 8 (by decide) (by decide)
      (by decide) (by decide) (by decide)).1, by decide, by decide⟩

/-- Claim C7: `MaskBits` is idempotent: for every integer type `T`, every `x` of `T` and
every `p`, `l` with `p + l ≤ bitwidth(T)`,
`MaskBits(MaskBits(x, p, l), p, l) = MaskBits(x, p, l)`. -/
theorem MaskBits_idempotent (T : IntType) (x : Int) (p l : Nat) (_hx : T.InRange x)
    (_h : p + l ≤ T.bits) :
    MaskBits T (MaskBits T x p l) p l = MaskBits T x p l := by
  rw [MaskBits_eq T (MaskBits T x p l), toBits_MaskBits, Nat.and_assoc, Nat.and_self,
    ← MaskBits_eq]

/-- Witness for C7: `T = uint16_t`, `x = 0x37AB`, `p = 9`, `l = 5`, masked value
`0x3600`. -/
theorem MaskBits_idempotent_witness :
    MaskBits uint16_t (MaskBits uint16_t 0x37AB 9 5) 9 5 = MaskBits uint16_t 0x37AB 9 5 ∧
    MaskBits uint16_t 0x37AB 9 5 = 0x3600 :=
  ⟨MaskBits_idempotent uint16_t 0x37AB 9 5 (by decide) (by decide), by decide⟩

/-- Claim C8 fails as stated: for `T = uint32_t`, `nPos = 0`, `nLen = 32` the precondition
`nPos + nLen ≤ 32` holds, but `1U << 32` is out of range.  At run time the count is taken
modulo 32, so `CreateBitMask<uint32_t>(0, 32)` is `(1 - 1) << 0 = 0`; with constant
arguments the shift is folded to `0`, so `CreateBitMask<uint32_t, 0, 32>()` is
`0 - 1 = 4294967295`. -/
theorem CreateBitMask_runtime_differs_uint32 :
    0 + 32 ≤ uint32_t.bits ∧
    CreateBitMaskChecked uint32_t 0 32 = none ∧
    CreateBitMask uint32_t 0 32 = 0 ∧
    CreateBitMaskCT uint32_t 0 32 = some 4294967295 := by
  decide

/-- Claim C8, amended: for every integer type `T` and all constants `nPos`, `nLen` with
`nPos + nLen ≤ bitwidth(T)` and, in addition, `nPos < 32` and `nLen < 32` (every shift
count below the width of the `unsigned int` operand that is shifted),
`CreateBitMask<T, nPos, nLen>()` produces the value `CreateBitMask<T>(nPos, nLen)`. -/
theorem CreateBitMaskCT_eq_runtime (T : IntType) (nPos nLen : Nat)
    (_h : nPos + nLen ≤ T.bits) (hp : nPos < 32) (hl : nLen < 32) :
    CreateBitMaskCT T nPos nLen = some (CreateBitMask T nPos nLen) := by
  rw [CreateBitMaskCT_eq, CreateBitMask_eq, maskNat_of_lt hp hl]

/-- Witness for C8: on each of the six test types
`(CreateBitMask<T, 9, 5>() & 0x37AB) = 0x3600`,
`(CreateBitMask<T, 0, 1>() & 0x37AB) = 0x0001`,
`(CreateBitMask<T, 15, 1>() & 0xB7AB) = 0x8000`, the values the runtime `MaskBits`
test requires. -/
theorem CreateBitMaskCT_eq_runtime_witness :
    CreateBitMaskCT uint64_t 9 5 = some (CreateBitMask uint64_t 9 5) ∧
    (∀ T ∈ testTypes,
      (CreateBitMaskCT T 9 5).map (fun m => T.promote.and m 0x37AB) = some 0x3600 ∧
      (CreateBitMaskCT T 0 1).map (fun m => T.promote.and m 0x37AB) = some 0x0001 ∧
      (CreateBitMaskCT T 15 1).map (fun m => T.promote.and m 0xB7AB) = some 0x8000 ∧
      MaskBits T 0x37AB 9 5 = 0x3600 ∧ MaskBits T 0x37AB 0 1 = 0x0001 ∧
      MaskBits T 0xB7AB 15 1 = 0x8000) :=
  ⟨CreateBitMaskCT_eq_runtime uint64_t 9 5 (by decide) (by decide) (by decide), by decide⟩

/-- Claim C9, evaluated on the code: the static check of `CreateBitMask<T, _nPos, _nLen>()`
rejects nothing.  Its `if constexpr` condition requires `T` to be a non-integer type,
and the assertion under it asserts a string literal, which is true; so the guard
never fails, every instantiation on an integer type produces a value, and in
particular `CreateBitMask<uint16_t, 20, 1>()` yields `0` and
`CreateBitMask<uint32_t, 30, 10>()` yields `0xC0000000`. -/
theorem static_check_never_rejects :
    (∀ (isIntegral : Bool) (sizeofT nPos nLen : Nat),
      staticCheckRejects isIntegral sizeofT nPos nLen = false) ∧
    (∀ (T : IntType) (nPos nLen : Nat), (CreateBitMaskCT T nPos nLen).isSome = true) ∧
    uint16_t.bits < 20 ∧ CreateBitMaskCT uint16_t 20 1 = some 0 ∧
    uint32_t.bits < 30 + 10 ∧ CreateBitMaskCT uint32_t 30 10 = some 0xC0000000 := by
  refine ⟨staticCheckRejects_false, ?_, by decide, by decide, by decide, by decide⟩
  intro T nPos nLen
  unfold CreateBitMaskCT
  rw [staticCheckRejects_false]
  rfl

/-- Claim C10 fails as stated: for `T = uint32_t`, `nPos = 0`, `nLen = 32` the
precondition `nPos + nLen ≤ 32` holds, but `1U << 32` shifts a 32-bit operand by 32:
the guarded `CreateBitMask`, `MaskBits` and `GetBitSlice` take the error branch. -/
theorem shift_out_of_range_uint32 :
    0 + 32 ≤ uint32_t.bits ∧ uint32_t.InRange 5 ∧
    CreateBitMaskChecked uint32_t 0 32 = none ∧
    MaskBitsChecked uint32_t 5 0 32 = none ∧
    GetBitSliceChecked uint32_t 5 0 32 = none := by
  decide

/-- Claim C10, amended: for every integer type `T`, if `nPos + nLen ≤ bitwidth(T)` and,
in addition, `nPos < 32` and `nLen < 32` (32 being the width of the `unsigned int`
operand that `CreateBitMask` shifts), then every shift executed by
`CreateBitMask<T>(nPos, nLen)`, `MaskBits(x, nPos, nLen)` and `GetBitSlice(x, nPos, nLen)`
has a count smaller than the width of the operand it shifts, and if
`8 * (nByte + 1) ≤ bitwidth(T)` the same holds for the shift in `GetByte(x, nByte)`:
the guarded operations return the value of the unguarded ones. -/
theorem shifts_in_range (T : IntType) (x : Int) (nPos nLen nByte : Nat)
    (_h : nPos + nLen ≤ T.bits) (hp : nPos < 32) (hl : nLen < 32) :
    CreateBitMaskChecked T nPos nLen = some (CreateBitMask T nPos nLen) ∧
    MaskBitsChecked T x nPos nLen = some (MaskBits T x nPos nLen) ∧
    GetBitSliceChecked T x nPos nLen = some (GetBitSlice T x nPos nLen) ∧
    (8 * (nByte + 1) ≤ T.bits → GetByteChecked T x nByte = some (GetByte T x nByte)) := by
  have hc := CreateBitMaskChecked_eq T hp hl
  have hm : MaskBitsChecked T x nPos nLen = some (MaskBits T x nPos nLen) := by
    unfold MaskBitsChecked
    rw [hc]
    rfl
  refine ⟨hc, hm, ?_, ?_⟩
  · unfold GetBitSliceChecked shrChecked shiftOk
    rw [hm]
    have : decide (nPos < T.promote.bits) = true :=
      decide_eq_true (Nat.lt_of_lt_of_le hp (promote_bits_ge T))
    simp only [Option.some_bind, this, if_true]
    rfl
  · intro hb
    unfold GetByteChecked shrChecked shiftOk
    have hle : sizeWrap (8 * nByte) ≤ 8 * nByte := Nat.mod_le _ _
    have : decide (sizeWrap (8 * nByte) < T.promote.bits) = true :=
      decide_eq_true (by have := promote_bits_le T; omega)
    simp only [this, if_true, Option.some_bind]
    rfl

/-- Witness for C10: `T = int`, `x = 0x37AB`, `nPos = 9`, `nLen = 5`, and the top byte of
the 64-bit test value. -/
theorem shifts_in_range_witness :
    GetBitSliceChecked IntType.int 0x37AB 9 5 = some (GetBitSlice IntType.int 0x37AB 9 5) ∧
    GetByteChecked uint64_t 0xABCDEF0123456789 7
      = some (GetByte uint64_t 0xABCDEF0123456789 7) ∧
    GetByte uint64_t 0xABCDEF0123456789 7 = 0xAB :=
  ⟨(shifts_in_range IntType.int 0x37AB 9 5 0 (by decide) (by decide) (by decide)).2.2.1,
   (shifts_in_range uint64_t 0xABCDEF0123456789 0 0 7 (by decide) (by decide)
      (by decide)).2.2.2 (by decide),
   by decide⟩

/-! ## Bytes of signed values, and the 32-bit intermediate of the mask -/

theorem ediv_emod_two_pow_emod_256 (x : Int) {n w : Nat} (h : 8 * (n + 1) ≤ w) :
    x % ((2 ^ w : Nat) : Int) / ((2 ^ (8 * n) : Nat) : Int) % 256
      = x / ((2 ^ (8 * n) : Nat) : Int) % 256 := by
  have hw : w = 8 * n + (8 + (w - 8 * (n + 1))) := by omega
  have hd : ((2 ^ (8 * n) : Nat) : Int) ≠ 0 := (two_pow_pos_int _).ne'
  have e : ((2 ^ w : Nat) : Int)
      = ((2 ^ (8 * n) : Nat) : Int) * (256 * ((2 ^ (w - 8 * (n + 1)) : Nat) : Int)) := by
    conv_lhs => rw [hw]
    rw [pow_add, pow_add]
    push_cast
    norm_num
  rw [e]
  generalize ((2 ^ (8 * n) : Nat) : Int) = d at hd ⊢
  generalize ((2 ^ (w - 8 * (n + 1)) : Nat) : Int) = c
  have e2 : x % (d * (256 * c)) = x + d * (256 * (-(c * (x / (d * (256 * c)))))) := by
    rw [Int.emod_def]; ring
  rw [e2, Int.add_mul_ediv_left _ _ hd, Int.add_mul_emod_self_left]

theorem maskNat_lt (nPos nLen : Nat) : maskNat nPos nLen < 2 ^ 32 := by
  unfold maskNat
  exact Nat.mod_lt _ (Nat.two_pow_pos 32)

theorem CreateBitMask_eq_maskNat_of_64 (T : IntType) (hT : T.bits = 64) (nPos nLen : Nat) :
    CreateBitMask T nPos nLen = ((maskNat nPos nLen : Nat) : Int) := by
  have hlt := maskNat_lt nPos nLen
  have h64 : maskNat nPos nLen < 2 ^ T.bits := by
    rw [hT]; exact Nat.lt_trans hlt (by decide)
  rw [CreateBitMask_eq, Nat.mod_eq_of_lt h64]
  apply ofBits_of_lt
  right
  rw [hT]
  exact Nat.lt_trans hlt (by decide)

/-- Claim C11: for every signed `T` of width `w` in `{16, 32, 64}`, every value `x` of `T`
(negative ones included) and every `nByte` with `8 * (nByte + 1) ≤ w`, `GetByte(x, nByte)`
lies in `[0, 255]` and equals `floor((x mod 2^w) / 256^nByte) mod 256`, the byte of the
two's-complement representation. -/
theorem GetByte_signed_twos_complement (T : IntType) (x : Int) (nByte : Nat) (hT : T.Standard)
    (_hs : T.signed = true) (_hx : T.InRange x) (hb : 8 * (nByte + 1) ≤ T.bits) :
    0 ≤ GetByte T x nByte ∧ GetByte T x nByte ≤ 255 ∧
    GetByte T x nByte = x % 2 ^ T.bits / 256 ^ nByte % 256 := by
  have hw : sizeWrap (8 * nByte) = 8 * nByte := sizeWrap_of_lt (by
    have : 8 * nByte < 2 ^ 6 := by
      unfold Standard at hT
      have : (2 : Nat) ^ 6 = 64 := by decide
      omega
    exact Nat.lt_trans this (by decide))
  have e : ((2 ^ (8 * nByte) : Nat) : Int) = 256 ^ nByte := by
    rw [pow_mul]; norm_num
  have hv : GetByte T x nByte = x % 2 ^ T.bits / 256 ^ nByte % 256 := by
    have h := ediv_emod_two_pow_emod_256 x hb
    have hbp : 8 * nByte < T.promote.bits := by
      have := promote_bits_le T
      omega
    rw [GetByte_eq T x nByte hbp hw, ← h, e]
    push_cast
    rfl
  refine ⟨?_, ?_, hv⟩
  · rw [hv]; exact Int.emod_nonneg _ (by decide)
  · rw [hv]
    have := Int.emod_lt_of_pos (x % 2 ^ T.bits / 256 ^ nByte) (by decide : (0 : Int) < 256)
    omega

/-- Witness for C11: `GetByte(int(-1), 3) = 0xFF` and `GetByte(int(-256), 0) = 0x00`; also
a 16-bit and a 64-bit signed value. -/
theorem GetByte_signed_twos_complement_witness :
    GetByte IntType.int (-1) 3 = (-1) % 2 ^ 32 / 256 ^ 3 % 256 ∧
    GetByte IntType.int (-1) 3 = 0xFF ∧ GetByte IntType.int (-256) 0 = 0x00 ∧
    GetByte int16_t (-2) 1 = 0xFF ∧ GetByte long_long (-2) 7 = 0xFF :=
  ⟨(GetByte_signed_twos_complement IntType.int (-1) 3 (by decide) rfl (by decide) (by decide)).2.2,
   by decide, by decide, by decide, by decide⟩

/-- Claim C12: for every 64-bit `T`, every `x` of `T` and every `nPos`, `nLen` (shifts of
the 32-bit intermediate taken modulo `2^32`), `CreateBitMask<T>(nPos, nLen)` is a value in
`[0, 2^32)`, so bits 32..63 of the mask are never set, and `MaskBits(x, nPos, nLen)` lies
in `[0, 2^32)` as well. -/
theorem mask64_below_two_pow_32 (T : IntType) (x : Int) (nPos nLen : Nat) (hT : T.bits = 64)
    (_hx : T.InRange x) :
    (0 ≤ CreateBitMask T nPos nLen ∧ CreateBitMask T nPos nLen < 2 ^ 32) ∧
    (∀ i, 32 ≤ i → (T.toBits (CreateBitMask T nPos nLen)).testBit i = false) ∧
    (0 ≤ MaskBits T x nPos nLen ∧ MaskBits T x nPos nLen < 2 ^ 32) := by
  have hlt := maskNat_lt nPos nLen
  have hm := CreateBitMask_eq_maskNat_of_64 T hT nPos nLen
  have h64 : maskNat nPos nLen < 2 ^ T.bits := by
    rw [hT]; exact Nat.lt_trans hlt (by decide)
  refine ⟨⟨?_, ?_⟩, ?_, ?_⟩
  · rw [hm]; exact Int.natCast_nonneg _
  · rw [hm]; exact_mod_cast hlt
  · intro i hi
    rw [toBits_CreateBitMask, Nat.mod_eq_of_lt h64]
    exact Nat.testBit_lt_two_pow (Nat.lt_of_lt_of_le hlt (Nat.pow_le_pow_right (by decide) hi))
  · have hB : T.toBits x &&& maskNat nPos nLen < 2 ^ 32 := Nat.and_lt_two_pow _ hlt
    have hM : MaskBits T x nPos nLen = ((T.toBits x &&& maskNat nPos nLen : Nat) : Int) := by
      rw [MaskBits_eq, Nat.mod_eq_of_lt h64]
      apply ofBits_of_lt
      right
      rw [hT]
      exact Nat.lt_trans hB (by decide)
    rw [hM]
    exact ⟨Int.natCast_nonneg _, by exact_mod_cast hB⟩

/-- Witness for C12: `T = long long`, `x = -1`, `nPos = 40`, `nLen = 8`; and two masks
that lose their upper part. -/
theorem mask64_below_two_pow_32_witness :
    (0 ≤ MaskBits long_long (-1) 40 8 ∧ MaskBits long_long (-1) 40 8 < 2 ^ 32) ∧
    CreateBitMask uint64_t 16 24 = 0xFFFF0000 ∧ MaskBits long_long (-1) 0 31 = 0x7FFFFFFF :=
  ⟨(mask64_below_two_pow_32 long_long (-1) 40 8 rfl (by decide)).2.2, by decide, by decide⟩

/-- Claim C13: for every integer type `T` of width `w` in `{16, 32, 64}` and every `nPos`,
`nLen` with `nLen ≤ 31` and `nPos + nLen ≤ min(w, 32)`, `CreateBitMask<T>(nPos, nLen)` has
the bit pattern `(2^nLen - 1) * 2^nPos` in `T` (it is the value of type `T` with that
representation, negative when `T` is signed and bit `w - 1` is set), and the
compile-time variant `CreateBitMask<T, nPos, nLen>()` returns the same value. -/
theorem CreateBitMask_exact_in_32bit_range (T : IntType) (nPos nLen : Nat) (_hT : T.Standard) (hl : nLen ≤ 31)
    (h : nPos + nLen ≤ min T.bits 32) :
    T.toBits (CreateBitMask T nPos nLen) = (2 ^ nLen - 1) * 2 ^ nPos ∧
    CreateBitMask T nPos nLen = T.ofBits ((2 ^ nLen - 1) * 2 ^ nPos) ∧
    CreateBitMaskCT T nPos nLen = some (CreateBitMask T nPos nLen) := by
  have h32 : nPos + nLen ≤ 32 := Nat.le_trans h (Nat.min_le_right _ _)
  have hw : nPos + nLen ≤ T.bits := Nat.le_trans h (Nat.min_le_left _ _)
  have hm : maskNat nPos nLen % 2 ^ T.bits = (2 ^ nLen - 1) * 2 ^ nPos := by
    rw [maskNat_exact hl h32]
    apply Nat.mod_eq_of_lt
    calc (2 ^ nLen - 1) * 2 ^ nPos < 2 ^ nLen * 2 ^ nPos :=
          Nat.mul_lt_mul_of_pos_right
            (by have := Nat.two_pow_pos nLen; omega) (Nat.two_pow_pos _)
      _ = 2 ^ (nLen + nPos) := (pow_add 2 nLen nPos).symm
      _ ≤ 2 ^ T.bits := Nat.pow_le_pow_right (by decide) (by omega)
  refine ⟨?_, ?_, ?_⟩
  · rw [toBits_CreateBitMask, hm]
  · rw [CreateBitMask_eq, hm]
  · have hmc : maskConstNat nPos nLen % 2 ^ T.bits = (2 ^ nLen - 1) * 2 ^ nPos := by
      have hm2 := hm
      rw [maskNat_exact hl h32] at hm2
      rw [maskConstNat_exact hl h32]
      exact hm2
    rw [CreateBitMaskCT_eq, CreateBitMask_eq, hm, hmc]

/-- Witness for C13: `T = int`, `nPos = 24`, `nLen = 8`: pattern `0xFF000000`, value
`-16777216`; and `CreateBitMask<uint16_t>(9, 5) = 0x3E00`. -/
theorem CreateBitMask_exact_in_32bit_range_witness :
    IntType.int.toBits (CreateBitMask IntType.int 24 8) = (2 ^ 8 - 1) * 2 ^ 24 ∧
    CreateBitMask IntType.int 24 8 = -16777216 ∧
    CreateBitMask uint16_t 9 5 = 0x3E00 ∧
    CreateBitMaskCT IntType.int 24 8 = some (-16777216) :=
  ⟨(CreateBitMask_exact_in_32bit_range IntType.int 24 8 (by decide) (by decide) (by decide)).1,
   by decide, by decide, by decide⟩

/-! ## Sign extension, bytes as slices, and reassembly -/

theorem ofBits_of_ge (T : IntType) (hs : T.signed = true) {b : Nat}
    (h : 2 ^ (T.bits - 1) ≤ b) : T.ofBits b = (b : Int) - ((2 ^ T.bits : Nat) : Int) := by
  unfold ofBits
  simp [hs, h]

theorem MaskBits_exact (T : IntType) (nInt : Int) {nPos nLen : Nat} (hl : nLen ≤ 31)
    (h32 : nPos + nLen ≤ 32) (hw : nPos + nLen ≤ T.bits) :
    MaskBits T nInt nPos nLen
      = T.ofBits (2 ^ nPos * (T.toBits nInt / 2 ^ nPos % 2 ^ nLen)) := by
  have hm : maskNat nPos nLen % 2 ^ T.bits = (2 ^ nLen - 1) * 2 ^ nPos := by
    rw [maskNat_exact hl h32]
    apply Nat.mod_eq_of_lt
    calc (2 ^ nLen - 1) * 2 ^ nPos < 2 ^ nLen * 2 ^ nPos :=
          Nat.mul_lt_mul_of_pos_right
            (by have := Nat.two_pow_pos nLen; omega) (Nat.two_pow_pos _)
      _ = 2 ^ (nLen + nPos) := (pow_add 2 nLen nPos).symm
      _ ≤ 2 ^ T.bits := Nat.pow_le_pow_right (by decide) (by omega)
  rw [MaskBits_eq, hm, and_mask_eq]

theorem GetBitSlice_int_top (x : Int) (p : Nat) (hx : IntType.int.InRange x) (hneg : x < 0)
    (hp1 : 1 ≤ p) (hp31 : p ≤ 31) :
    GetBitSlice IntType.int x p (32 - p) = x / ((2 ^ p : Nat) : Int) := by
  have hx1 : -2147483648 ≤ x := by
    have h := hx
    unfold InRange at h
    simp only [int, if_true] at h
    norm_num at h
    exact h.1
  have hX : ((IntType.int.toBits x : Nat) : Int) = x + 4294967296 := by
    have h := toBits_cast IntType.int x
    have e : ((2 ^ IntType.int.bits : Nat) : Int) = 4294967296 := by
      simp only [int]; norm_num
    rw [e] at h
    omega
  have hde : 2 ^ p * 2 ^ (32 - p) = 2 ^ 32 := by
    rw [← pow_add]; congr 1; omega
  have hde2 : 2 ^ p * 2 ^ (31 - p) = 2 ^ 31 := by
    rw [← pow_add]; congr 1; omega
  have hdpos : 0 < 2 ^ p := Nat.two_pow_pos p
  have hXlt : IntType.int.toBits x < 2 ^ p * 2 ^ (32 - p) := by
    rw [hde]; exact toBits_lt IntType.int x
  have hdiv : IntType.int.toBits x / 2 ^ p < 2 ^ (32 - p) :=
    Nat.div_lt_of_lt_mul hXlt
  have hpp : p < IntType.int.promote.bits := by
    show p < 32
    omega
  rw [GetBitSlice_eq_ediv IntType.int (by decide) x (32 - p) hpp,
    MaskBits_exact IntType.int x (by omega) (by omega) (by simp only [int]; omega),
    Nat.mod_eq_of_lt hdiv]
  have hdI : ((2 ^ p : Nat) : Int) ≠ 0 := (two_pow_pos_int p).ne'
  have hdI0 : (0 : Int) < ((2 ^ p : Nat) : Int) := two_pow_pos_int p
  have hq : ((IntType.int.toBits x / 2 ^ p : Nat) : Int)
      = x / ((2 ^ p : Nat) : Int) + ((2 ^ (32 - p) : Nat) : Int) := by
    rw [Int.natCast_div, hX]
    have e : (4294967296 : Int) = ((2 ^ p : Nat) : Int) * ((2 ^ (32 - p) : Nat) : Int) := by
      have : ((2 ^ p * 2 ^ (32 - p) : Nat) : Int) = ((2 ^ 32 : Nat) : Int) := by rw [hde]
      push_cast at this ⊢
      rw [this]
    rw [e, Int.add_mul_ediv_left _ _ hdI]
  have hqge : -((2 ^ (31 - p) : Nat) : Int) ≤ x / ((2 ^ p : Nat) : Int) := by
    apply Int.le_ediv_of_mul_le hdI0
    have : ((2 ^ p * 2 ^ (31 - p) : Nat) : Int) = ((2 ^ 31 : Nat) : Int) := by rw [hde2]
    push_cast at this ⊢
    linarith
  have hB : ((2 ^ p * (IntType.int.toBits x / 2 ^ p) : Nat) : Int)
      = ((2 ^ p : Nat) : Int) * (x / ((2 ^ p : Nat) : Int)) + 4294967296 := by
    rw [Nat.cast_mul, hq, mul_add]
    have : ((2 ^ p * 2 ^ (32 - p) : Nat) : Int) = ((2 ^ 32 : Nat) : Int) := by rw [hde]
    push_cast at this ⊢
    rw [this]
  have hge : 2 ^ (IntType.int.bits - 1) ≤ 2 ^ p * (IntType.int.toBits x / 2 ^ p) := by
    have h1 : (2147483648 : Int) ≤ ((2 ^ p * (IntType.int.toBits x / 2 ^ p) : Nat) : Int) := by
      rw [hB]
      have h2 : ((2 ^ p : Nat) : Int) * (-((2 ^ (31 - p) : Nat) : Int))
          ≤ ((2 ^ p : Nat) : Int) * (x / ((2 ^ p : Nat) : Int)) :=
        Int.mul_le_mul_of_nonneg_left hqge (le_of_lt hdI0)
      have : ((2 ^ p * 2 ^ (31 - p) : Nat) : Int) = ((2 ^ 31 : Nat) : Int) := by rw [hde2]
      push_cast at this h2 ⊢
      linarith
    have h3 : (2 : Nat) ^ (IntType.int.bits - 1) = 2147483648 := by
      simp only [int]; norm_num
    rw [h3]
    exact_mod_cast h1
  rw [ofBits_of_ge IntType.int rfl hge, hB]
  have e32 : ((2 ^ IntType.int.bits : Nat) : Int) = 4294967296 := by
    simp only [int]; norm_num
  rw [e32, add_sub_cancel_right, Int.mul_ediv_cancel_left _ hdI]

/-- Claim C14: for `T = int`, every negative `x` and every `nPos` in `[1, 31]` with
`nLen = 32 - nPos`, `GetBitSlice(x, nPos, nLen)` is the arithmetic shift
`floor(x / 2^nPos)`; it is negative, hence below the unsigned field value
`floor((x mod 2^32) / 2^nPos)`: the slice is sign-extended, not zero-extended. -/
theorem GetBitSlice_int_top_field_sign_extended (x : Int) (nPos : Nat) (hx : IntType.int.InRange x) (hneg : x < 0)
    (hp1 : 1 ≤ nPos) (hp31 : nPos ≤ 31) :
    GetBitSlice IntType.int x nPos (32 - nPos) = x / 2 ^ nPos ∧
    GetBitSlice IntType.int x nPos (32 - nPos) < 0 ∧
    GetBitSlice IntType.int x nPos (32 - nPos) < x % 2 ^ 32 / 2 ^ nPos := by
  have hv := GetBitSlice_int_top x nPos hx hneg hp1 hp31
  have hd : (0 : Int) < 2 ^ nPos := by positivity
  have e : ((2 ^ nPos : Nat) : Int) = 2 ^ nPos := by push_cast; rfl
  rw [e] at hv
  have hlt : x / 2 ^ nPos < 0 := Int.ediv_neg' hneg hd
  refine ⟨hv, ?_, ?_⟩
  · rw [hv]; exact hlt
  · rw [hv]
    have h0 : (0 : Int) ≤ x % 2 ^ 32 / 2 ^ nPos :=
      Int.ediv_nonneg (Int.emod_nonneg _ (by norm_num)) (le_of_lt hd)
    omega

/-- Witness for C14: `GetBitSlice(int(-1), 24, 8) = -1`, whereas the unsigned field is
`0xFF`. -/
theorem GetBitSlice_int_top_field_sign_extended_witness :
    GetBitSlice IntType.int (-1) 24 (32 - 24) = (-1) / 2 ^ 24 ∧
    GetBitSlice IntType.int (-1) 24 8 = -1 ∧
    (-1 : Int) % 2 ^ 32 / 2 ^ 24 = 0xFF :=
  ⟨(GetBitSlice_int_top_field_sign_extended (-1) 24 (by decide) (by decide) (by decide) (by decide)).1, by decide, by decide⟩

theorem toBits_uint32_of_inRange {x : Int} (hx : uint32_t.InRange x) :
    ((uint32_t.toBits x : Nat) : Int) = x := by
  unfold InRange at hx
  exact toBits_of_nonneg uint32_t hx.1 hx.2

theorem GetBitSlice_uint32 {x : Int} (hx : uint32_t.InRange x) {nPos nLen : Nat}
    (hl : nLen ≤ 31) (h32 : nPos + nLen ≤ 32) :
    GetBitSlice uint32_t x nPos nLen = x / ((2 ^ nPos : Nat) : Int) % ((2 ^ nLen : Nat) : Int) := by
  rw [GetBitSlice_field uint32_t x hl h32 h32 (Or.inl rfl), Int.natCast_mod, Int.natCast_div,
    toBits_uint32_of_inRange hx]

/-- Claim C15: for every `uint32_t` value `x` and every `nByte` in `[0, 3]`,
`GetByte(x, nByte) = GetBitSlice(x, 8 * nByte, 8)`. -/
theorem GetByte_eq_GetBitSlice_uint32 (x : Int) (nByte : Nat) (hx : uint32_t.InRange x) (hn : nByte ≤ 3) :
    GetByte uint32_t x nByte = GetBitSlice uint32_t x (8 * nByte) 8 := by
  have hw : sizeWrap (8 * nByte) = 8 * nByte := sizeWrap_of_lt (by
    have : 8 * nByte < 32 := by omega
    exact Nat.lt_trans this (by decide))
  have hb : 8 * nByte < uint32_t.promote.bits := by
    show 8 * nByte < 32
    omega
  rw [GetByte_eq uint32_t x nByte hb hw, GetBitSlice_uint32 hx (by decide) (by omega)]
  norm_num

/-- Witness for C15: `x = 0x89ABCDEF`, `nByte = 2`, byte `0xAB`. -/
theorem GetByte_eq_GetBitSlice_uint32_witness :
    GetByte uint32_t 0x89ABCDEF 2 = GetBitSlice uint32_t 0x89ABCDEF (8 * 2) 8 ∧
    GetByte uint32_t 0x89ABCDEF 2 = 0xAB ∧ GetBitSlice uint32_t 0x89ABCDEF 16 8 = 0xAB :=
  ⟨GetByte_eq_GetBitSlice_uint32 0x89ABCDEF 2 (by decide) (by decide), by decide, by decide⟩

theorem GetByte_sum_uint64 {x : Int} (hx : uint64_t.InRange x) :
    Finset.sum (Finset.range 8) (fun i => GetByte uint64_t x i * 256 ^ i) = x := by
  unfold InRange at hx
  simp only [uint64_t, Bool.false_eq_true, if_false] at hx
  norm_num at hx
  have g : ∀ i, i < 8 → GetByte uint64_t x i = x / ((2 ^ (8 * i) : Nat) : Int) % 256 :=
    fun i hi => GetByte_eq uint64_t x i (show 8 * i < 64 by omega)
      (sizeWrap_of_lt (Nat.lt_trans (show 8 * i < 64 by omega) (by decide)))
  simp only [Finset.sum_range_succ, Finset.sum_range_zero]
  rw [g 0 (by decide), g 1 (by decide), g 2 (by decide), g 3 (by decide), g 4 (by decide),
    g 5 (by decide), g 6 (by decide), g 7 (by decide)]
  norm_num
  omega

theorem GetByte_sum_uint32 {x : Int} (hx : uint32_t.InRange x) :
    Finset.sum (Finset.range 4) (fun i => GetByte uint32_t x i * 256 ^ i) = x := by
  unfold InRange at hx
  simp only [uint32_t, Bool.false_eq_true, if_false] at hx
  norm_num at hx
  have g : ∀ i, i < 4 → GetByte uint32_t x i = x / ((2 ^ (8 * i) : Nat) : Int) % 256 :=
    fun i hi => GetByte_eq uint32_t x i (show 8 * i < 32 by omega)
      (sizeWrap_of_lt (Nat.lt_trans (show 8 * i < 32 by omega) (by decide)))
  simp only [Finset.sum_range_succ, Finset.sum_range_zero]
  rw [g 0 (by decide), g 1 (by decide), g 2 (by decide), g 3 (by decide)]
  norm_num
  omega

/-- Claim C16: the bytes returned by `GetByte` reassemble the integer: for every
`uint64_t` value `x` the sum over `i = 0..7` of `GetByte(x, i) * 256^i` is `x`, likewise
for every `uint32_t` value with `i = 0..3`; so two values with the same `GetByte` at
every valid index are equal. -/
theorem GetByte_reassembles :
    (∀ x : Int, uint64_t.InRange x →
      Finset.sum (Finset.range 8) (fun i => GetByte uint64_t x i * 256 ^ i) = x) ∧
    (∀ x : Int, uint32_t.InRange x →
      Finset.sum (Finset.range 4) (fun i => GetByte uint32_t x i * 256 ^ i) = x) ∧
    (∀ x y : Int, uint64_t.InRange x → uint64_t.InRange y →
      (∀ i, i < 8 → GetByte uint64_t x i = GetByte uint64_t y i) → x = y) ∧
    (∀ x y : Int, uint32_t.InRange x → uint32_t.InRange y →
      (∀ i, i < 4 → GetByte uint32_t x i = GetByte uint32_t y i) → x = y) := by
  refine ⟨fun x hx => GetByte_sum_uint64 hx, fun x hx => GetByte_sum_uint32 hx, ?_, ?_⟩
  · intro x y hx hy h
    rw [← GetByte_sum_uint64 hx, ← GetByte_sum_uint64 hy]
    apply Finset.sum_congr rfl
    intro i hi
    rw [h i (Finset.mem_range.mp hi)]
  · intro x y hx hy h
    rw [← GetByte_sum_uint32 hx, ← GetByte_sum_uint32 hy]
    apply Finset.sum_congr rfl
    intro i hi
    rw [h i (Finset.mem_range.mp hi)]

/-- Witness for C16: the 64-bit test value `0xABCDEF0123456789` and the 32-bit value
`0x89ABCDEF`. -/
theorem GetByte_reassembles_witness :
    Finset.sum (Finset.range 8) (fun i => GetByte uint64_t 0xABCDEF0123456789 i * 256 ^ i)
      = 0xABCDEF0123456789 ∧
    Finset.sum (Finset.range 4) (fun i => GetByte uint32_t 0x89ABCDEF i * 256 ^ i)
      = 0x89ABCDEF :=
  ⟨GetByte_reassembles.1 0xABCDEF0123456789 (by decide), GetByte_reassembles.2.1 0x89ABCDEF (by decide)⟩

/-! ## Adjacent fields -/

theorem testBit_field (X p l j : Nat) :
    (X / 2 ^ p % 2 ^ l).testBit j = (decide (j < l) && X.testBit (p + j)) := by
  rw [Nat.testBit_mod_two_pow, testBit_div_two_pow]

theorem testBit_shifted_field (X p l i : Nat) :
    (2 ^ p * (X / 2 ^ p % 2 ^ l)).testBit i
      = (decide (p ≤ i) && decide (i < p + l) && X.testBit i) := by
  rw [Nat.testBit_mul_pow_two, testBit_field]
  by_cases h : p ≤ i
  · have e : p + (i - p) = i := by omega
    have e2 : (i - p < l) ↔ (i < p + l) := by omega
    simp [h, e, e2]
  · simp [h]

theorem and_uint32_natCast {m n : Nat} (hm : m < 2 ^ 32) (hn : n < 2 ^ 32) :
    uint32_t.and (m : Int) (n : Int) = ((m &&& n : Nat) : Int) := by
  unfold IntType.and
  rw [ofBits_unsigned _ rfl, toBits_natCast, toBits_natCast,
    Nat.mod_eq_of_lt (show m < 2 ^ uint32_t.bits from hm),
    Nat.mod_eq_of_lt (show n < 2 ^ uint32_t.bits from hn)]

theorem or_uint32_natCast {m n : Nat} (hm : m < 2 ^ 32) (hn : n < 2 ^ 32) :
    uint32_t.or (m : Int) (n : Int) = ((m ||| n : Nat) : Int) := by
  unfold IntType.or
  rw [ofBits_unsigned _ rfl, toBits_natCast, toBits_natCast,
    Nat.mod_eq_of_lt (show m < 2 ^ uint32_t.bits from hm),
    Nat.mod_eq_of_lt (show n < 2 ^ uint32_t.bits from hn)]

theorem shifted_field_lt {p l : Nat} (h : p + l ≤ 32) (X : Nat) :
    2 ^ p * (X / 2 ^ p % 2 ^ l) < 2 ^ 32 :=
  calc 2 ^ p * (X / 2 ^ p % 2 ^ l) < 2 ^ p * 2 ^ l :=
        Nat.mul_lt_mul_of_pos_left (Nat.mod_lt _ (Nat.two_pow_pos _)) (Nat.two_pow_pos _)
    _ = 2 ^ (p + l) := (pow_add 2 p l).symm
    _ ≤ 2 ^ 32 := Nat.pow_le_pow_right (by decide) h

theorem MaskBits_uint32 (x : Int) (nPos nLen : Nat) (hl : nLen ≤ 31) (h32 : nPos + nLen ≤ 32) :
    MaskBits uint32_t x nPos nLen
      = ((2 ^ nPos * (uint32_t.toBits x / 2 ^ nPos % 2 ^ nLen) : Nat) : Int) := by
  rw [MaskBits_exact uint32_t x hl h32 h32, ofBits_unsigned _ rfl]

theorem GetBitSlice_uint32_nat (x : Int) (nPos nLen : Nat) (hl : nLen ≤ 31)
    (h32 : nPos + nLen ≤ 32) :
    GetBitSlice uint32_t x nPos nLen
      = ((uint32_t.toBits x / 2 ^ nPos % 2 ^ nLen : Nat) : Int) :=
  GetBitSlice_field uint32_t x hl h32 h32 (Or.inl rfl)

theorem field_lt {l : Nat} (h : l ≤ 32) (X p : Nat) : X / 2 ^ p % 2 ^ l < 2 ^ 32 :=
  Nat.lt_of_lt_of_le (Nat.mod_lt _ (Nat.two_pow_pos _)) (Nat.pow_le_pow_right (by decide) h)

/-- Claim C17: adjacent bit fields partition their union: for every `uint32_t` value `x`
and every `p`, `a`, `b` with `p + a + b ≤ 31`,
`MaskBits(x, p, a) & MaskBits(x, p + a, b) = 0`,
`MaskBits(x, p, a) | MaskBits(x, p + a, b) = MaskBits(x, p, a + b)` and
`GetBitSlice(x, p, a + b) = GetBitSlice(x, p, a) | (GetBitSlice(x, p + a, b) << a)`. -/
theorem adjacent_fields_partition (x : Int) (p a b : Nat) (_hx : uint32_t.InRange x) (h : p + a + b ≤ 31) :
    uint32_t.and (MaskBits uint32_t x p a) (MaskBits uint32_t x (p + a) b) = 0 ∧
    uint32_t.or (MaskBits uint32_t x p a) (MaskBits uint32_t x (p + a) b)
      = MaskBits uint32_t x p (a + b) ∧
    GetBitSlice uint32_t x p (a + b)
      = uint32_t.or (GetBitSlice uint32_t x p a)
          (uint32_t.shl (GetBitSlice uint32_t x (p + a) b) a) := by
  generalize hX : uint32_t.toBits x = X
  have m1 := MaskBits_uint32 x p a (by omega) (by omega)
  have m2 := MaskBits_uint32 x (p + a) b (by omega) (by omega)
  have m3 := MaskBits_uint32 x p (a + b) (by omega) (by omega)
  have s1 := GetBitSlice_uint32_nat x p a (by omega) (by omega)
  have s2 := GetBitSlice_uint32_nat x (p + a) b (by omega) (by omega)
  have s3 := GetBitSlice_uint32_nat x p (a + b) (by omega) (by omega)
  rw [hX] at m1 m2 m3 s1 s2 s3
  refine ⟨?_, ?_, ?_⟩
  · rw [m1, m2, and_uint32_natCast (shifted_field_lt (by omega) X)
      (shifted_field_lt (by omega) X)]
    have e : 2 ^ p * (X / 2 ^ p % 2 ^ a) &&& 2 ^ (p + a) * (X / 2 ^ (p + a) % 2 ^ b) = 0 := by
      apply Nat.eq_of_testBit_eq
      intro i
      rw [Nat.testBit_and, testBit_shifted_field, testBit_shifted_field, Nat.zero_testBit]
      by_cases h1 : i < p + a
      · have : ¬ (p + a ≤ i) := by omega
        simp [this]
      · simp [h1]
    rw [e]
    rfl
  · rw [m1, m2, m3, or_uint32_natCast (shifted_field_lt (by omega) X)
      (shifted_field_lt (by omega) X)]
    congr 1
    apply Nat.eq_of_testBit_eq
    intro i
    rw [Nat.testBit_or, testBit_shifted_field, testBit_shifted_field, testBit_shifted_field]
    by_cases h1 : i < p + a
    · have n1 : ¬ (p + a ≤ i) := by omega
      have n2 : i < p + (a + b) := by omega
      simp [h1, n1, n2]
    · have n1 : p ≤ i := by omega
      have n2 : p + a ≤ i := by omega
      have n3 : (i < p + a + b) ↔ (i < p + (a + b)) := by omega
      simp [h1, n1, n2, n3]
  · rw [s1, s2, s3]
    have hsh : uint32_t.shl ((X / 2 ^ (p + a) % 2 ^ b : Nat) : Int) a
        = ((2 ^ a * (X / 2 ^ (p + a) % 2 ^ b) : Nat) : Int) := by
      rw [shl_of_lt uint32_t _ (show a < 32 by omega)]
      have e : ((X / 2 ^ (p + a) % 2 ^ b : Nat) : Int) * ((2 ^ a : Nat) : Int)
          = ((2 ^ a * (X / 2 ^ (p + a) % 2 ^ b) : Nat) : Int) := by
        push_cast; ring
      have hlt : 2 ^ a * (X / 2 ^ (p + a) % 2 ^ b) < 2 ^ uint32_t.bits :=
        calc 2 ^ a * (X / 2 ^ (p + a) % 2 ^ b) < 2 ^ a * 2 ^ b :=
              Nat.mul_lt_mul_of_pos_left (Nat.mod_lt _ (Nat.two_pow_pos _)) (Nat.two_pow_pos _)
          _ = 2 ^ (a + b) := (pow_add 2 a b).symm
          _ ≤ 2 ^ 32 := Nat.pow_le_pow_right (by decide) (by omega)
      rw [e, convert_natCast_of_lt uint32_t hlt (Or.inl rfl)]
    have hlt2 : 2 ^ a * (X / 2 ^ (p + a) % 2 ^ b) < 2 ^ 32 :=
      calc 2 ^ a * (X / 2 ^ (p + a) % 2 ^ b) < 2 ^ a * 2 ^ b :=
            Nat.mul_lt_mul_of_pos_left (Nat.mod_lt _ (Nat.two_pow_pos _)) (Nat.two_pow_pos _)
        _ = 2 ^ (a + b) := (pow_add 2 a b).symm
        _ ≤ 2 ^ 32 := Nat.pow_le_pow_right (by decide) (by omega)
    rw [hsh, or_uint32_natCast (field_lt (by omega) X p) hlt2]
    congr 1
    apply Nat.eq_of_testBit_eq
    intro j
    rw [Nat.testBit_or, testBit_field, testBit_field, Nat.testBit_mul_pow_two, testBit_field]
    by_cases h1 : j < a
    · have n1 : ¬ (a ≤ j) := by omega
      have n2 : j < a + b := by omega
      simp [h1, n1, n2]
    · have n1 : a ≤ j := by omega
      have e1 : p + a + (j - a) = p + j := by omega
      have n3 : (j - a < b) ↔ (j < a + b) := by omega
      simp [h1, n1, e1, n3]

/-- Witness for C17: `x = 0x37AB`, `p = 4`, `a = 5`, `b = 5`: the fields `0x01A0` and
`0x3600` are disjoint and make up `0x37A0`. -/
theorem adjacent_fields_partition_witness :
    uint32_t.and (MaskBits uint32_t 0x37AB 4 5) (MaskBits uint32_t 0x37AB (4 + 5) 5) = 0 ∧
    MaskBits uint32_t 0x37AB 4 5 = 0x01A0 ∧ MaskBits uint32_t 0x37AB 9 5 = 0x3600 ∧
    MaskBits uint32_t 0x37AB 4 10 = 0x37A0 ∧
    GetBitSlice uint32_t 0x37AB 4 10 = 0x37A :=
  ⟨(adjacent_fields_partition 0x37AB 4 5 5 (by decide) (by decide)).1,
   by decide, by decide, by decide, by decide⟩

end ByteUtilities
